import Mathlib

/-!
# dotenv: a shallow embedding of `dotenv.go`

The package keeps a global map `Envs`, mirrors it into the process environment and
loads / saves it from a text file at `envPath`.

Modelling conventions.

* A Go `string` is a sequence of bytes: `GoString := List UInt8`.
* A Go `map[string]string` is an association list with `lookup`/`assign`; the `nil` map is
  `Option.none` one level up (`World.Envs`).
* Every function result is a `Run`: a normal return, a run-time panic, or exhaustion of the
  fuel that bounds the unbounded `for` loop of `LoadEnv`.
* The order in which `range` visits a map is an oracle `ro`, constrained only by
  `RangeOracle` (each entry exactly once).
* I/O failures the program cannot cause itself are an oracle `IOFaults`.
-/

namespace Dotenv

/-- A Go string: an immutable sequence of bytes. -/
abbrev GoString := List UInt8

/-- The bytes of an ASCII literal. -/
def ascii (s : String) : GoString := s.toList.map (fun c => UInt8.ofNat c.toNat)

/-- Outcome of running a piece of Go code. -/
inductive Run (α : Type) where
  /-- normal return -/
  | ret (a : α)
  /-- run-time panic (index out of range, slice bounds out of range, write to a nil map) -/
  | panic
  /-- the loop was still running when the fuel ran out -/
  | fuelOut
  deriving DecidableEq, Repr

/-- Sequencing of `Run`s. -/
def Run.bind {α β : Type} (r : Run α) (f : α → Run β) : Run β :=
  match r with
  | .ret a => f a
  | .panic => .panic
  | .fuelOut => .fuelOut

/-! ## `emptyChar` and `trimSpaces` -/

/-- `emptyChar(b, i)`: `b[i]` panics when `i` is not a valid index. -/
def emptyChar (b : GoString) (i : Nat) : Run Bool :=
  match b[i]? with
  | none => .panic
  | some c => .ret (c == 32 || c == 13 || c == 9 || c == 10)

/-- First loop of `trimSpaces`: `for st < l && emptyChar(*buf, st) { st++ }`. -/
def trimSpaces.startLoop (buf : GoString) (l : Nat) : Nat → Nat → Run Nat
  | 0, _ => .fuelOut
  | fuel + 1, st =>
    if st < l then
      (emptyChar buf st).bind fun e =>
        if e then trimSpaces.startLoop buf l fuel (st + 1) else .ret st
    else .ret st

/-- Second loop of `trimSpaces`: `for end >= 0 && emptyChar(*buf, st) { end-- }`.
The index tested is `st`, as in the source. -/
def trimSpaces.endLoop (buf : GoString) (st : Nat) : Nat → Int → Run Int
  | 0, _ => .fuelOut
  | fuel + 1, e =>
    if 0 ≤ e then
      (emptyChar buf st).bind fun c =>
        if c then trimSpaces.endLoop buf st fuel (e - 1) else .ret e
    else .ret e

/-- Slice expression `b[lo:hi]`: panics unless `0 ≤ lo ≤ hi ≤ len(b)`. -/
def slice (b : GoString) (lo : Nat) (hi : Int) : Run GoString :=
  if 0 ≤ hi ∧ (lo : Int) ≤ hi ∧ hi ≤ (b.length : Int) then
    .ret ((b.take hi.toNat).drop lo)
  else .panic

/-- `trimSpaces(buf)`: the new value of `*buf`. Each loop gets `len(buf) + 1` units of fuel,
which always suffices (`trimSpaces_ne_fuelOut`). -/
def trimSpaces (buf : GoString) : Run GoString :=
  let l := buf.length
  (trimSpaces.startLoop buf l (l + 1) 0).bind fun st =>
    (trimSpaces.endLoop buf st (l + 1) ((l : Int) - 1)).bind fun e =>
      slice buf st (e + 1)

/-! ## Maps, errors and the host -/

/-- A Go `map[string]string` (non-nil): association list, one entry per key. -/
abbrev GoMap := List (GoString × GoString)

/-- The comma-ok lookup `v, ok := m[k]`. -/
def GoMap.lookup : GoMap → GoString → Option GoString
  | [], _ => none
  | (k', v) :: rest, k => if k' = k then some v else GoMap.lookup rest k

/-- The index expression `m[k]`: the zero value `""` when the key is absent. -/
def GoMap.index (m : GoMap) (k : GoString) : GoString := (GoMap.lookup m k).getD []

/-- The assignment `m[k] = v`: overwrites the entry of `k`, or adds one. -/
def GoMap.assign : GoMap → GoString → GoString → GoMap
  | [], k, v => [(k, v)]
  | (k', v') :: rest, k, v =>
    if k' = k then (k, v) :: rest else (k', v') :: GoMap.assign rest k v

/-- Keys are unique, as in every Go map. -/
def GoMap.Valid (m : GoMap) : Prop := (m.map Prod.fst).Nodup

instance (m : GoMap) : Decidable (GoMap.Valid m) := by
  unfold GoMap.Valid
  infer_instance

/-- Values of Go's `error` that the package can see (`Option.none` is `nil`). -/
inductive GoError where
  /-- `io.EOF` -/
  | EOF
  /-- `os.Open` failed for a reason other than "file does not exist" -/
  | openFailed
  /-- a read failed for a reason other than end of file -/
  | readFailed
  /-- `os.Create` failed -/
  | createFailed
  /-- `f.WriteString` failed -/
  | writeFailed
  /-- `os.Setenv` rejected its arguments (`EINVAL`) -/
  | setenvInvalid
  deriving DecidableEq, Repr

/-- I/O failures that are decided by the host, not by the program. -/
structure IOFaults where
  /-- `os.Open` fails with an error for which `os.IsNotExist` is false (permission denied, a
  path component that is not a directory, ...), whether or not a file exists at the path -/
  openFails : Bool
  /-- the stream delivers only this many bytes and then fails with a non-EOF error -/
  readFails : Option Nat
  /-- `os.Create` fails -/
  createFails : Bool
  /-- `(i, n)`: the `i`-th `WriteString` call fails after `n` of its bytes were written -/
  writeFails : Option (Nat × Nat)
  deriving DecidableEq, Repr

/-- No I/O failure. -/
def IOFaults.noFault : IOFaults := ⟨false, none, false, none⟩

/-- The package-level variables together with the parts of the host they touch. -/
structure World where
  /-- `envPath`, initially `".env"` -/
  envPath : GoString
  /-- `Envs`; `none` is the nil map the variable holds before the first `LoadEnv` -/
  Envs : Option GoMap
  /-- the environment variables of the process -/
  environ : GoMap
  /-- the regular files of the file system, path ↦ content -/
  files : GoMap
  /-- number of `go SaveEnv()` goroutines started so far -/
  spawned : Nat
  deriving DecidableEq, Repr

/-- `os.Setenv` of the Go standard library on Unix: `EINVAL` when the key is empty or contains
`=` or NUL, or the value contains NUL; otherwise the variable is set. -/
def Setenv (environ : GoMap) (key value : GoString) : GoMap × Option GoError :=
  if key.length = 0 ∨ 61 ∈ key ∨ 0 ∈ key ∨ 0 ∈ value then (environ, some .setenvInvalid)
  else (GoMap.assign environ key value, none)

/-- `os.LookupEnv`. -/
def LookupEnv (environ : GoMap) (key : GoString) : Option GoString := GoMap.lookup environ key

/-- `range m`: the entries of the map; a nil map has none. -/
def rangeEntries (m : Option GoMap) : List (GoString × GoString) := m.getD []

/-- The order in which `range` visits a map is unspecified: `ro` picks one, and every entry
is visited exactly once. -/
def RangeOracle (ro : GoMap → List (GoString × GoString)) : Prop := ∀ m, (ro m).Perm m

/-! ## Store accessors -/

/-- `SetEnvPath(path)`. -/
def SetEnvPath (w : World) (path : GoString) : World := { w with envPath := path }

/-- `GetEnvPath()`. -/
def GetEnvPath (w : World) : GoString := w.envPath

/-- `Get(key)`: `Envs[key]`; reading a nil map yields `""`. -/
def Get (w : World) (key : GoString) : GoString := GoMap.index (rangeEntries w.Envs) key

/-- `Set(key, value)`: `Envs[key] = value` panics on a nil map; the result is `os.Setenv`'s. -/
def Set (w : World) (key value : GoString) : Run (World × Option GoError) :=
  match w.Envs with
  | none => .panic
  | some m =>
    let r := Setenv w.environ key value
    .ret ({ w with Envs := some (GoMap.assign m key value), environ := r.1 }, r.2)

/-! ## `SaveEnv` -/

/-- The loop of `SaveEnv` over the entries still to be written: `i` is the index of the next
`WriteString` call, `content` what the file holds so far. -/
def SaveEnv.writeLoop (io : IOFaults) :
    List (GoString × GoString) → Nat → GoString → GoString × Option GoError
  | [], _, content => (content, none)
  | (k, v) :: rest, i, content =>
    match io.writeFails with
    | some (j, n) =>
      if j = i then (content ++ (k ++ ascii "=" ++ v).take n, some .writeFailed)
      else SaveEnv.writeLoop io rest (i + 1) (content ++ (k ++ ascii "=" ++ v))
    | none => SaveEnv.writeLoop io rest (i + 1) (content ++ (k ++ ascii "=" ++ v))

/-- `SaveEnv()`: `os.Create` truncates or creates the file, then every entry is written as
`k + "=" + v`. -/
def SaveEnv (ro : GoMap → List (GoString × GoString)) (io : IOFaults) (w : World) :
    World × Option GoError :=
  if io.createFails then (w, some .createFailed)
  else
    let r := SaveEnv.writeLoop io (ro (rangeEntries w.Envs)) 0 []
    ({ w with files := GoMap.assign w.files w.envPath r.1 }, r.2)

/-- `SetSave(key, value, blocking...)`. With `blocking[0]` the save runs before the return and
its error is dropped. Otherwise `go SaveEnv()` is only recorded in `spawned`: the goroutine
reads `Envs` and writes the file at some later time, which this model does not follow. -/
def SetSave (w : World) (key value : GoString) (blocking : List Bool)
    (ro : GoMap → List (GoString × GoString)) (io : IOFaults) : Run (World × Option GoError) :=
  match w.Envs with
  | none => .panic
  | some m =>
    let r := Setenv w.environ key value
    let w1 : World := { w with Envs := some (GoMap.assign m key value), environ := r.1 }
    if blocking.length ≠ 0 ∧ blocking.head? = some true then
      .ret ((SaveEnv ro io w1).1, r.2)
    else
      .ret ({ w1 with spawned := w1.spawned + 1 }, r.2)

/-! ## `LoadEnv` -/

/-- A `bufio.Reader` over the opened file. -/
structure Reader where
  /-- bytes not yet consumed -/
  data : GoString
  /-- the stream ends in a non-EOF error instead of `io.EOF` -/
  broken : Bool
  deriving DecidableEq, Repr

/-- `r.ReadString(delim)`: the bytes up to and including the first `delim`; when the stream
ends first, the bytes read so far together with the error. -/
def ReadString (r : Reader) (delim : UInt8) : GoString × Option GoError × Reader :=
  match r.data.dropWhile (· != delim) with
  | [] => (r.data, some (if r.broken then GoError.readFailed else GoError.EOF), ⟨[], r.broken⟩)
  | d :: post => (r.data.takeWhile (· != delim) ++ [d], none, ⟨post, r.broken⟩)

/-- `strings.SplitN(s, sep, n)` for a one-byte separator and `n ≥ 0`: at most `n` pieces, the
last one holding the unsplit rest. -/
def SplitN (s : GoString) (sep : UInt8) : Nat → List GoString
  | 0 => []
  | 1 => [s]
  | n + 2 =>
    match s.dropWhile (· != sep) with
    | [] => [s]
    | _ :: post => s.takeWhile (· != sep) :: SplitN post sep (n + 1)

/-- How one pass through the body of the `for` loop of `LoadEnv` ends. -/
inductive LoopExit where
  /-- `continue`: back to the loop head with this state -/
  | next (r : Reader) (eof : Bool) (envs : GoMap)
  /-- `break` -/
  | brk (envs : GoMap)
  /-- `return err` -/
  | retErr (envs : GoMap) (err : Option GoError)
  deriving DecidableEq, Repr

/-- One pass through the body of the `for` loop of `LoadEnv`. State: the reader, the flag
`eof`, the map `Envs`. -/
def LoadEnv.body (r : Reader) (eof : Bool) (envs : GoMap) : Run LoopExit :=
  match ReadString r 10 with
  | (line, err, r1) =>
    if err ≠ none ∧ err ≠ some GoError.EOF then .ret (.retErr envs err)
    else
      let eof1 := if err ≠ none then true else eof
      (trimSpaces line).bind fun line1 =>
        if line1.length = 0 ∨ line1.head? = some 35 then .ret (.next r1 eof1 envs)
        else
          let vals := SplitN line1 61 2
          if vals.length ≠ 2 then .ret (.next r1 eof1 envs)
          else
            let envs1 := GoMap.assign envs (vals.getD 0 []) (vals.getD 1 [])
            if eof1 then .ret (.brk envs1) else .ret (.next r1 eof1 envs1)

/-- The `for` loop of `LoadEnv`, at most `fuel` passes. The result is the map together with
the error returned from inside the loop (`none` after `break`). -/
def LoadEnv.scan : Nat → Reader → Bool → GoMap → Run (GoMap × Option GoError)
  | 0, _, _, _ => .fuelOut
  | fuel + 1, r, eof, envs =>
    (LoadEnv.body r eof envs).bind fun x =>
      match x with
      | .next r1 eof1 envs1 => LoadEnv.scan fuel r1 eof1 envs1
      | .brk envs1 => .ret (envs1, none)
      | .retErr envs1 err => .ret (envs1, err)

/-- The final loop of `LoadEnv`: `os.Setenv(k, v)` for every entry, errors ignored. -/
def LoadEnv.mirror (environ : GoMap) : List (GoString × GoString) → GoMap
  | [] => environ
  | (k, v) :: rest => LoadEnv.mirror (Setenv environ k v).1 rest

/-- `LoadEnv()` with `fuel` iterations allowed to the scan loop. `os.Open` fails when no file
exists at `envPath`, and the error is returned unless it is a does-not-exist error
(`os.IsNotExist`); it can also fail on an existing file. -/
def LoadEnv (fuel : Nat) (ro : GoMap → List (GoString × GoString)) (io : IOFaults)
    (w : World) : Run (World × Option GoError) :=
  let w0 : World := { w with Envs := some [] }
  match GoMap.lookup w.files w.envPath with
  | none => if io.openFails then .ret (w0, some .openFailed) else .ret (w0, none)
  | some content =>
    if io.openFails then .ret (w0, some .openFailed)
    else
      let r : Reader :=
        match io.readFails with
        | none => ⟨content, false⟩
        | some n => ⟨content.take n, true⟩
      (LoadEnv.scan fuel r false []).bind fun res =>
        match res.2 with
        | some e => .ret ({ w0 with Envs := some res.1 }, some e)
        | none =>
          .ret ({ w0 with Envs := some res.1,
                          environ := LoadEnv.mirror w0.environ (ro res.1) }, none)

/-- A world whose only file is `.env` with the given content, `Envs` still nil. -/
def worldWithFile (content : GoString) : World :=
  ⟨ascii ".env", none, [], [(ascii ".env", content)], 0⟩

/-! ## Notions of the specification -/

/-- The bytes `emptyChar` accepts: space, carriage return, tab, newline. -/
def isBlankByte (c : UInt8) : Bool := c == 32 || c == 13 || c == 9 || c == 10

/-- The trim of the specification (section 4.1): leading and trailing blanks removed. -/
def specTrim (line : GoString) : GoString :=
  ((line.dropWhile isBlankByte).reverse.dropWhile isBlankByte).reverse

/-- A line the specification skips as blank or as a comment: after trimming it is empty or
its first byte is `#`. -/
def isBlankOrComment (line : GoString) : Prop :=
  specTrim line = [] ∨ (specTrim line).head? = some 35

instance (line : GoString) : Decidable (isBlankOrComment line) := by
  unfold isBlankOrComment
  infer_instance

/-- The lines of a text: the pieces between its newline bytes. -/
def fileLines : GoString → List GoString
  | [] => [[]]
  | c :: rest =>
    if c = 10 then [] :: fileLines rest
    else
      match fileLines rest with
      | [] => [[c]]
      | l :: ls => (c :: l) :: ls

/-- What `SaveEnv` writes for one entry: `k + "=" + v`. -/
def entryText (kv : GoString × GoString) : GoString := kv.1 ++ ascii "=" ++ kv.2

/-- The behaviour the specification gives to a blocking `SetSave`: `Set(key, value)`, then
`SaveEnv()`, and the result of `Set` as the result. -/
def SetThenSave (w : World) (key value : GoString)
    (ro : GoMap → List (GoString × GoString)) (io : IOFaults) : Run (World × Option GoError) :=
  (Set w key value).bind fun r => .ret ((SaveEnv ro io r.1).1, r.2)

/-- The newline-terminated lines of a text, each without its newline. -/
def terminatedLines (content : GoString) : List GoString := (fileLines content).dropLast

/-- The text after the last newline of a text; the whole text when it has no newline. -/
def afterLastNewline (content : GoString) : GoString := ((fileLines content).getLast?).getD []

/-- The condition for `LoadEnv` to return: (a) no newline-terminated line consists of blanks
only, and (b) the text after the last newline, leading blanks removed, is not empty, does not
start with `#` and holds an `=`. -/
def ReturnCondition (content : GoString) : Prop :=
  (∀ l ∈ terminatedLines content, ¬ (∀ c ∈ l ++ [10], isBlankByte c = true)) ∧
  (afterLastNewline content).dropWhile isBlankByte ≠ [] ∧
  ((afterLastNewline content).dropWhile isBlankByte).head? ≠ some 35 ∧
  (61 : UInt8) ∈ (afterLastNewline content).dropWhile isBlankByte

instance (content : GoString) : Decidable (ReturnCondition content) := by
  unfold ReturnCondition
  infer_instance

/-- The key a line defines by the specification (section 4.1): the line is trimmed; a blank
line and a comment define none; otherwise it is the text before the first `=`, when there is
an `=`. -/
def specKey (line : GoString) : Option GoString :=
  if specTrim line = [] ∨ (specTrim line).head? = some 35 then none
  else if (61 : UInt8) ∈ specTrim line then some ((specTrim line).takeWhile (· != 61))
  else none

/-! ## Facts about `trimSpaces` -/

theorem emptyChar_of_lt {b : GoString} {i : Nat} (h : i < b.length) :
    emptyChar b i = .ret (isBlankByte b[i]) := by
  simp [emptyChar, List.getElem?_eq_getElem h, isBlankByte]

theorem emptyChar_of_le {b : GoString} {i : Nat} (h : b.length ≤ i) :
    emptyChar b i = .panic := by
  simp [emptyChar, List.getElem?_eq_none h]

theorem startLoop_eq (buf : GoString) :
    ∀ (fuel st : Nat), buf.length - st < fuel →
      trimSpaces.startLoop buf buf.length fuel st
        = .ret (st + ((buf.drop st).takeWhile isBlankByte).length) := by
  intro fuel
  induction fuel with
  | zero => intro st h; omega
  | succ n ih =>
    intro st h
    unfold trimSpaces.startLoop
    by_cases hst : st < buf.length
    · have hdrop : buf.drop st = buf[st] :: buf.drop (st + 1) :=
        List.drop_eq_getElem_cons hst
      rw [if_pos hst, emptyChar_of_lt hst, hdrop]
      by_cases hc : isBlankByte buf[st] = true
      · simp only [Run.bind, hc, if_true, List.takeWhile_cons_of_pos, List.length_cons]
        rw [ih (st + 1) (by omega)]
        congr 1
        omega
      · simp [Run.bind, hc]
    · rw [if_neg hst]
      have : buf.drop st = [] := List.drop_eq_nil_of_le (by omega)
      simp [this]

theorem drop_length_takeWhile (p : UInt8 → Bool) (b : GoString) :
    b.drop (b.takeWhile p).length = b.dropWhile p := by
  induction b with
  | nil => rfl
  | cons c r ih =>
    by_cases hc : p c = true
    · simp [List.takeWhile_cons_of_pos hc, List.dropWhile_cons_of_pos hc, ih]
    · simp [List.takeWhile_cons_of_neg hc, List.dropWhile_cons_of_neg hc]

theorem dropWhile_head_false (p : UInt8 → Bool) (b : GoString) {c : UInt8} {r : GoString}
    (h : b.dropWhile p = c :: r) : p c = false := by
  induction b with
  | nil => simp at h
  | cons d t ih =>
    by_cases hd : p d = true
    · rw [List.dropWhile_cons_of_pos hd] at h
      exact ih h
    · rw [List.dropWhile_cons_of_neg hd] at h
      have : d = c := by injection h
      subst this
      simpa using hd

theorem length_takeWhile_le (p : UInt8 → Bool) (b : GoString) :
    (b.takeWhile p).length ≤ b.length := by
  have h := congrArg List.length (List.takeWhile_append_dropWhile p b)
  rw [List.length_append] at h
  omega

/-- On a line with a byte that is not blank, `trimSpaces` removes the leading blanks and
nothing else. -/
theorem trimSpaces_of_nonblank (b : GoString) (h : b.dropWhile isBlankByte ≠ []) :
    trimSpaces b = .ret (b.dropWhile isBlankByte) := by
  obtain ⟨c, r, hcr⟩ := List.exists_cons_of_ne_nil h
  have hc : isBlankByte c = false := dropWhile_head_false _ _ hcr
  have hdrop := drop_length_takeWhile isBlankByte b
  have hlt : (b.takeWhile isBlankByte).length < b.length := by
    by_contra hge
    rw [List.drop_eq_nil_of_le (by omega)] at hdrop
    exact h hdrop.symm
  have hget : b[(b.takeWhile isBlankByte).length] = c := by
    have h1 := List.drop_eq_getElem_cons hlt
    rw [hdrop, hcr] at h1
    injection h1 with h2 _
    exact h2.symm
  have hpos : (0 : Int) ≤ (b.length : Int) - 1 := by omega
  unfold trimSpaces
  simp only [startLoop_eq b (b.length + 1) 0 (by omega), List.drop_zero, Nat.zero_add, Run.bind]
  unfold trimSpaces.endLoop
  rw [if_pos hpos, emptyChar_of_lt hlt, hget, hc]
  simp only [Run.bind, slice]
  have hcond : (0 : Int) ≤ (b.length : Int) - 1 + 1 ∧
      ((b.takeWhile isBlankByte).length : Int) ≤ (b.length : Int) - 1 + 1 ∧
      (b.length : Int) - 1 + 1 ≤ (b.length : Int) := by omega
  have hnat : ((b.length : Int) - 1 + 1).toNat = b.length := by omega
  simp only [Bool.false_eq_true, if_false]
  rw [if_pos hcond, hnat, List.take_length, hdrop]

/-- On a non-empty line of blanks only, `trimSpaces` indexes one past the end. -/
theorem trimSpaces_of_blank (b : GoString) (h : b.dropWhile isBlankByte = []) (hne : b ≠ []) :
    trimSpaces b = .panic := by
  have hdrop := drop_length_takeWhile isBlankByte b
  have hle := length_takeWhile_le isBlankByte b
  have hlen : (b.takeWhile isBlankByte).length = b.length := by
    by_contra hneq
    have hlt : (b.takeWhile isBlankByte).length < b.length := by omega
    rw [List.drop_eq_getElem_cons hlt, h] at hdrop
    exact List.cons_ne_nil _ _ hdrop
  have hl : 0 < b.length := List.length_pos.mpr hne
  have hpos : (0 : Int) ≤ (b.length : Int) - 1 := by omega
  unfold trimSpaces
  simp only [startLoop_eq b (b.length + 1) 0 (by omega), List.drop_zero, Nat.zero_add, Run.bind,
    hlen]
  unfold trimSpaces.endLoop
  rw [if_pos hpos, emptyChar_of_le (Nat.le_refl _)]
  rfl

theorem trimSpaces_nil : trimSpaces [] = .ret [] := by decide

/-- The fuel given to the two loops of `trimSpaces` always suffices. -/
theorem trimSpaces_ne_fuelOut (b : GoString) : trimSpaces b ≠ .fuelOut := by
  by_cases h : b.dropWhile isBlankByte = []
  · by_cases hb : b = []
    · subst hb
      rw [trimSpaces_nil]
      exact Run.noConfusion
    · rw [trimSpaces_of_blank b h hb]
      exact Run.noConfusion
  · rw [trimSpaces_of_nonblank b h]
    exact Run.noConfusion

/-! ## Facts about maps -/

theorem GoMap.lookup_assign_self (m : GoMap) (k v : GoString) :
    GoMap.lookup (GoMap.assign m k v) k = some v := by
  induction m with
  | nil => simp [GoMap.assign, GoMap.lookup]
  | cons e rest ih =>
    obtain ⟨k', v'⟩ := e
    by_cases h : k' = k
    · simp [GoMap.assign, GoMap.lookup, h]
    · simp [GoMap.assign, GoMap.lookup, h, ih]

theorem GoMap.lookup_assign_ne (m : GoMap) {k k2 : GoString} (v : GoString) (h : k ≠ k2) :
    GoMap.lookup (GoMap.assign m k v) k2 = GoMap.lookup m k2 := by
  induction m with
  | nil => simp [GoMap.assign, GoMap.lookup, h]
  | cons e rest ih =>
    obtain ⟨k', v'⟩ := e
    by_cases h1 : k' = k
    · subst h1
      simp [GoMap.assign, GoMap.lookup, h]
    · by_cases h2 : k' = k2
      · subst h2
        simp [GoMap.assign, GoMap.lookup, h1]
      · simp [GoMap.assign, GoMap.lookup, h1, h2, ih]

/-! ## Facts about the scan loop -/

/-- More fuel does not change a run that ended. -/
theorem scan_mono : ∀ (fuel : Nat) (r : Reader) (eof : Bool) (envs : GoMap)
    (x : Run (GoMap × Option GoError)), LoadEnv.scan fuel r eof envs = x → x ≠ .fuelOut →
    ∀ k, LoadEnv.scan (fuel + k) r eof envs = x := by
  intro fuel
  induction fuel with
  | zero =>
    intro r eof envs x h hx
    exact absurd h.symm hx
  | succ n ih =>
    intro r eof envs x h hx k
    have hk : n + 1 + k = (n + k) + 1 := by omega
    rw [hk]
    unfold LoadEnv.scan at h ⊢
    cases hb : LoadEnv.body r eof envs with
    | panic => rw [hb] at h; exact h
    | fuelOut => rw [hb] at h; exact h
    | ret e =>
      rw [hb] at h
      cases e with
      | next r1 eof1 envs1 => exact ih r1 eof1 envs1 x h hx k
      | brk envs1 => exact h
      | retErr envs1 err => exact h

/-- `LoadEnv` on an existing, readable file, once the scan loop has left through `break`. -/
theorem LoadEnv_of_scan_ret (fuel : Nat) (ro : GoMap → List (GoString × GoString))
    (io : IOFaults) (w : World) (content : GoString) (m : GoMap)
    (hfile : GoMap.lookup w.files w.envPath = some content)
    (hopen : io.openFails = false) (hread : io.readFails = none)
    (hscan : LoadEnv.scan fuel ⟨content, false⟩ false [] = .ret (m, none)) (k : Nat) :
    LoadEnv (fuel + k) ro io w
      = .ret (⟨w.envPath, some m, LoadEnv.mirror w.environ (ro m), w.files, w.spawned⟩, none) := by
  have h := scan_mono fuel _ _ _ _ hscan (by simp) k
  simp [LoadEnv, hfile, hopen, hread, h, Run.bind]

/-- `LoadEnv` on an existing, readable file, when the scan loop panics. -/
theorem LoadEnv_of_scan_panic (fuel : Nat) (ro : GoMap → List (GoString × GoString))
    (io : IOFaults) (w : World) (content : GoString)
    (hfile : GoMap.lookup w.files w.envPath = some content)
    (hopen : io.openFails = false) (hread : io.readFails = none)
    (hscan : LoadEnv.scan fuel ⟨content, false⟩ false [] = .panic) (k : Nat) :
    LoadEnv (fuel + k) ro io w = .panic := by
  have h := scan_mono fuel _ _ _ _ hscan (by simp) k
  simp [LoadEnv, hfile, hopen, hread, h, Run.bind]

/-- `LoadEnv` on an existing, readable file, when the scan loop never leaves. -/
theorem LoadEnv_of_scan_fuelOut (fuel : Nat) (ro : GoMap → List (GoString × GoString))
    (io : IOFaults) (w : World) (content : GoString)
    (hfile : GoMap.lookup w.files w.envPath = some content)
    (hopen : io.openFails = false) (hread : io.readFails = none)
    (hscan : LoadEnv.scan fuel ⟨content, false⟩ false [] = .fuelOut) :
    LoadEnv fuel ro io w = .fuelOut := by
  simp [LoadEnv, hfile, hopen, hread, hscan, Run.bind]

/-- At end of file with nothing left to read, the loop reads `""`, skips it and starts over:
it never leaves. -/
theorem scan_at_eof_fuelOut : ∀ (fuel : Nat) (eof : Bool) (envs : GoMap),
    LoadEnv.scan fuel ⟨[], false⟩ eof envs = .fuelOut := by
  intro fuel
  induction fuel with
  | zero => intro eof envs; rfl
  | succ n ih =>
    intro eof envs
    have hb : LoadEnv.body ⟨[], false⟩ eof envs = .ret (.next ⟨[], false⟩ true envs) := by
      simp [LoadEnv.body, ReadString, trimSpaces_nil, Run.bind]
    unfold LoadEnv.scan
    rw [hb]
    exact ih true envs

theorem scan_succ_next {r r1 : Reader} {eof eof1 : Bool} {envs envs1 : GoMap}
    (h : LoadEnv.body r eof envs = .ret (.next r1 eof1 envs1)) (n : Nat) :
    LoadEnv.scan (n + 1) r eof envs = LoadEnv.scan n r1 eof1 envs1 := by
  rw [LoadEnv.scan, h]
  rfl

/-- When the pass over the last newline-terminated line ends in `continue` with nothing left
to read, the loop never leaves, whatever the fuel. -/
theorem scan_fuelOut_of_last_next {r : Reader} {eof eof1 : Bool} {envs envs1 : GoMap}
    (h : LoadEnv.body r eof envs = .ret (.next ⟨[], false⟩ eof1 envs1)) (fuel : Nat) :
    LoadEnv.scan fuel r eof envs = .fuelOut := by
  cases fuel with
  | zero => rfl
  | succ n => rw [scan_succ_next h, scan_at_eof_fuelOut]

theorem perm_pair {α : Type} {a b : α} {l : List α} (h : l.Perm [a, b]) :
    l = [a, b] ∨ l = [b, a] := by
  have hlen := h.length_eq
  match l, hlen with
  | [x, y], _ =>
    have hx : x ∈ [a, b] := h.subset (List.mem_cons_self x _)
    simp only [List.mem_cons, List.mem_singleton, List.not_mem_nil, or_false] at hx
    rcases hx with hx | hx
    · subst hx
      have h1 : [y].Perm [b] := (List.perm_cons x).mp h
      have h2 := List.perm_singleton.mp h1
      simp only [List.cons.injEq, and_true] at h2
      subst h2
      exact Or.inl rfl
    · subst hx
      have h0 : [x, y].Perm [x, a] := h.trans (List.Perm.swap x a [])
      have h1 : [y].Perm [a] := (List.perm_cons x).mp h0
      have h2 := List.perm_singleton.mp h1
      simp only [List.cons.injEq, and_true] at h2
      subst h2
      exact Or.inr rfl

theorem worldWithFile_lookup (content : GoString) :
    GoMap.lookup (worldWithFile content).files (worldWithFile content).envPath = some content := by
  simp [worldWithFile, GoMap.lookup]

theorem Get_mk (p : GoString) (m e f : GoMap) (n : Nat) (k : GoString) :
    Get ⟨p, some m, e, f, n⟩ k = GoMap.index m k := rfl

/-! ## Facts about `SaveEnv` and `Set` -/

theorem writeLoop_ok (io : IOFaults) : ∀ (l : List (GoString × GoString)) (i : Nat)
    (c c1 : GoString), SaveEnv.writeLoop io l i c = (c1, none) →
    c1 = c ++ (l.map entryText).flatten := by
  intro l
  induction l with
  | nil =>
    intro i c c1 h
    simp only [SaveEnv.writeLoop, Prod.mk.injEq, and_true] at h
    simp [h]
  | cons e rest ih =>
    intro i c c1 h
    obtain ⟨k, v⟩ := e
    unfold SaveEnv.writeLoop at h
    cases hf : io.writeFails with
    | none =>
      rw [hf] at h
      have := ih _ _ _ h
      simp [this, entryText, List.append_assoc]
    | some jn =>
      obtain ⟨j, n⟩ := jn
      rw [hf] at h
      by_cases hj : j = i
      · simp [hj] at h
      · simp only [hj, if_false] at h
        have := ih _ _ _ h
        simp [this, entryText, List.append_assoc]

theorem SaveEnv_Envs (ro : GoMap → List (GoString × GoString)) (io : IOFaults) (w : World) :
    (SaveEnv ro io w).1.Envs = w.Envs ∧ (SaveEnv ro io w).1.environ = w.environ
      ∧ (SaveEnv ro io w).1.envPath = w.envPath := by
  unfold SaveEnv
  split <;> simp

/-- The file `SaveEnv` leaves behind when it returns no error. -/
theorem SaveEnv_ok_file (ro : GoMap → List (GoString × GoString)) (io : IOFaults) (w : World)
    (hok : (SaveEnv ro io w).2 = none) :
    GoMap.lookup (SaveEnv ro io w).1.files w.envPath
      = some (((ro (rangeEntries w.Envs)).map entryText).flatten) := by
  unfold SaveEnv at hok ⊢
  by_cases hc : io.createFails = true
  · simp [hc] at hok
  · simp only [hc, Bool.false_eq_true, if_false] at hok ⊢
    have h := writeLoop_ok io (ro (rangeEntries w.Envs)) 0 []
      (SaveEnv.writeLoop io (ro (rangeEntries w.Envs)) 0 []).1 (Prod.ext rfl hok)
    rw [GoMap.lookup_assign_self, h]
    simp

theorem writeLoop_of_no_fault (io : IOFaults) (hio : io.writeFails = none) :
    ∀ (l : List (GoString × GoString)) (i : Nat) (c : GoString),
      SaveEnv.writeLoop io l i c = (c ++ (l.map entryText).flatten, none) := by
  intro l
  induction l with
  | nil => intro i c; simp [SaveEnv.writeLoop]
  | cons e rest ih =>
    intro i c
    obtain ⟨k, v⟩ := e
    unfold SaveEnv.writeLoop
    rw [hio]
    simp [ih, entryText, List.append_assoc]

theorem SaveEnv_noFault_ok (ro : GoMap → List (GoString × GoString)) (w : World) :
    (SaveEnv ro IOFaults.noFault w).2 = none := by
  simp [SaveEnv, IOFaults.noFault, writeLoop_of_no_fault ⟨false, none, false, none⟩ rfl]

theorem Setenv_ok_lookup (environ : GoMap) (key value : GoString)
    (h : (Setenv environ key value).2 = none) :
    LookupEnv (Setenv environ key value).1 key = some value := by
  unfold Setenv at h ⊢
  by_cases hc : key.length = 0 ∨ 61 ∈ key ∨ 0 ∈ key ∨ 0 ∈ value
  · rw [if_pos hc] at h
    simp at h
  · rw [if_neg hc]
    exact GoMap.lookup_assign_self _ _ _

theorem index_assign_self (m : GoMap) (k v : GoString) :
    GoMap.index (GoMap.assign m k v) k = v := by
  simp [GoMap.index, GoMap.lookup_assign_self]

theorem mem_assign_self (m : GoMap) (k v : GoString) : (k, v) ∈ GoMap.assign m k v := by
  induction m with
  | nil => simp [GoMap.assign]
  | cons e rest ih =>
    obtain ⟨k1, v1⟩ := e
    by_cases h : k1 = k
    · simp [GoMap.assign, h]
    · simp only [GoMap.assign, h, if_false]
      exact List.mem_cons_of_mem _ ih

/-! ## Lines of a file and the passes of the scan loop -/

theorem dropWhile_append_of_nil (p : UInt8 → Bool) (a b : GoString)
    (h : a.dropWhile p = []) : (a ++ b).dropWhile p = b.dropWhile p := by
  induction a with
  | nil => rfl
  | cons c r ih =>
    by_cases hc : p c = true
    · rw [List.dropWhile_cons_of_pos hc] at h
      rw [List.cons_append, List.dropWhile_cons_of_pos hc]
      exact ih h
    · rw [List.dropWhile_cons_of_neg hc] at h
      exact absurd h (List.cons_ne_nil _ _)

theorem dropWhile_append_of_ne_nil (p : UInt8 → Bool) (a b : GoString)
    (h : a.dropWhile p ≠ []) : (a ++ b).dropWhile p = a.dropWhile p ++ b := by
  induction a with
  | nil => exact absurd rfl h
  | cons c r ih =>
    by_cases hc : p c = true
    · rw [List.dropWhile_cons_of_pos hc] at h
      rw [List.cons_append, List.dropWhile_cons_of_pos hc, List.dropWhile_cons_of_pos hc]
      exact ih h
    · rw [List.cons_append, List.dropWhile_cons_of_neg hc, List.dropWhile_cons_of_neg hc]
      rfl

/-- The trim of the specification and the removal of leading blanks alone start with the same
byte, and are empty together. -/
theorem specTrim_head (line : GoString) :
    (specTrim line).head? = (line.dropWhile isBlankByte).head? := by
  unfold specTrim
  cases hd : line.dropWhile isBlankByte with
  | nil => rfl
  | cons c r =>
    have hc : isBlankByte c = false := dropWhile_head_false _ _ hd
    have hne : [c].dropWhile isBlankByte ≠ [] := by simp [List.dropWhile, hc]
    have h1 : [c].dropWhile isBlankByte = [c] := by simp [List.dropWhile, hc]
    by_cases hr : r.reverse.dropWhile isBlankByte = []
    · rw [List.reverse_cons, dropWhile_append_of_nil _ _ _ hr, h1]
      rfl
    · rw [List.reverse_cons, dropWhile_append_of_ne_nil _ _ _ hr, List.reverse_append]
      rfl

theorem isBlankOrComment_iff (line : GoString) :
    isBlankOrComment line ↔
      line.dropWhile isBlankByte = [] ∨ (line.dropWhile isBlankByte).head? = some 35 := by
  unfold isBlankOrComment
  rw [specTrim_head]
  constructor
  · rintro (h | h)
    · left
      have := congrArg List.head? h
      rw [specTrim_head] at this
      cases hd : line.dropWhile isBlankByte with
      | nil => rfl
      | cons c r => rw [hd] at this; simp at this
    · exact Or.inr h
  · rintro (h | h)
    · left
      have h2 := specTrim_head line
      rw [h] at h2
      cases hs : specTrim line with
      | nil => rfl
      | cons c r => rw [hs] at h2; simp at h2
    · exact Or.inr h

theorem newline_of_dropWhile {data post : GoString} {d : UInt8}
    (h : data.dropWhile (· != 10) = d :: post) : d = 10 := by
  have := dropWhile_head_false (· != 10) data h
  simpa using this

theorem fileLines_ne_nil (data : GoString) : fileLines data ≠ [] := by
  cases data with
  | nil => simp [fileLines]
  | cons c r =>
    unfold fileLines
    split
    · simp
    · split <;> simp

theorem dropWhile_cons_pos (p : UInt8 → Bool) (c : UInt8) (r : GoString) (h : p c = true) :
    (c :: r).dropWhile p = r.dropWhile p := List.dropWhile_cons_of_pos h

theorem dropWhile_cons_neg (p : UInt8 → Bool) (c : UInt8) (r : GoString) (h : ¬ p c = true) :
    (c :: r).dropWhile p = c :: r := List.dropWhile_cons_of_neg h

theorem takeWhile_cons_pos (p : UInt8 → Bool) (c : UInt8) (r : GoString) (h : p c = true) :
    (c :: r).takeWhile p = c :: r.takeWhile p := List.takeWhile_cons_of_pos h

theorem takeWhile_cons_neg (p : UInt8 → Bool) (c : UInt8) (r : GoString) (h : ¬ p c = true) :
    (c :: r).takeWhile p = [] := List.takeWhile_cons_of_neg h

theorem fileLines_of_no_newline (data : GoString) (h : data.dropWhile (· != 10) = []) :
    fileLines data = [data] := by
  induction data with
  | nil => rfl
  | cons c r ih =>
    by_cases hc : (c != 10) = true
    · rw [dropWhile_cons_pos (· != 10) c r hc] at h
      have hc2 : c ≠ 10 := by simpa using hc
      simp [fileLines, hc2, ih h]
    · rw [dropWhile_cons_neg (· != 10) c r hc] at h
      exact absurd h (List.cons_ne_nil _ _)

theorem fileLines_of_newline (data post : GoString) (d : UInt8)
    (h : data.dropWhile (· != 10) = d :: post) :
    fileLines data = data.takeWhile (· != 10) :: fileLines post := by
  induction data with
  | nil => simp at h
  | cons c r ih =>
    by_cases hc : (c != 10) = true
    · rw [dropWhile_cons_pos (· != 10) c r hc] at h
      have hc2 : c ≠ 10 := by simpa using hc
      rw [takeWhile_cons_pos (· != 10) c r hc]
      simp [fileLines, hc2, ih h]
    · rw [dropWhile_cons_neg (· != 10) c r hc] at h
      have hc2 : c = 10 := by simpa using hc
      injection h with _ h2
      rw [takeWhile_cons_neg (· != 10) c r hc]
      simp [fileLines, hc2, h2]

theorem ReadString_of_no_newline (data : GoString) (b : Bool)
    (h : data.dropWhile (· != 10) = []) :
    ReadString ⟨data, b⟩ 10
      = (data, some (if b then GoError.readFailed else GoError.EOF), ⟨[], b⟩) := by
  simp only [ReadString, h]

theorem ReadString_at_eof (data : GoString) (h : data.dropWhile (· != 10) = []) :
    ReadString ⟨data, false⟩ 10 = (data, some GoError.EOF, ⟨[], false⟩) := by
  simp only [ReadString, h]
  rfl

theorem ReadString_of_newline (data post : GoString) (d : UInt8) (b : Bool)
    (h : data.dropWhile (· != 10) = d :: post) :
    ReadString ⟨data, b⟩ 10 = (data.takeWhile (· != 10) ++ [10], none, ⟨post, b⟩) := by
  have hd := newline_of_dropWhile h
  subst hd
  simp only [ReadString, h]

/-- A pass of the loop body over a line that `trimSpaces` leaves empty or starting with `#`
ends in `continue`. -/
theorem body_of_skip {r r1 : Reader} {eof : Bool} {envs : GoMap} {line line1 : GoString}
    {err : Option GoError} (hread : ReadString r 10 = (line, err, r1))
    (herr : err = none ∨ err = some GoError.EOF) (htrim : trimSpaces line = .ret line1)
    (hskip : line1.length = 0 ∨ line1.head? = some 35) :
    LoadEnv.body r eof envs = .ret (.next r1 (if err ≠ none then true else eof) envs) := by
  have hne : ¬ (err ≠ none ∧ err ≠ some GoError.EOF) := by
    rcases herr with h | h <;> simp [h]
  simp only [LoadEnv.body, hread, if_neg hne, htrim, Run.bind, if_pos hskip]

/-- A pass of the loop body over a line on which `trimSpaces` panics, panics. -/
theorem body_of_trim_panic {r r1 : Reader} {eof : Bool} {envs : GoMap} {line : GoString}
    {err : Option GoError} (hread : ReadString r 10 = (line, err, r1))
    (herr : err = none ∨ err = some GoError.EOF) (htrim : trimSpaces line = .panic) :
    LoadEnv.body r eof envs = .panic := by
  have hne : ¬ (err ≠ none ∧ err ≠ some GoError.EOF) := by
    rcases herr with h | h <;> simp [h]
  simp only [LoadEnv.body, hread, if_neg hne, htrim, Run.bind]

theorem scan_succ_panic {r : Reader} {eof : Bool} {envs : GoMap}
    (h : LoadEnv.body r eof envs = .panic) (n : Nat) :
    LoadEnv.scan (n + 1) r eof envs = .panic := by
  rw [LoadEnv.scan, h]
  rfl

/-- Over a text all of whose lines are blank or comments, the scan loop never leaves through
`break` or `return`: it panics on a blank line or runs forever at the end of the file. -/
theorem scan_of_blank_or_comment : ∀ (fuel : Nat) (data : GoString) (eof : Bool) (envs : GoMap),
    (∀ l ∈ fileLines data, isBlankOrComment l) →
    LoadEnv.scan fuel ⟨data, false⟩ eof envs = .panic
      ∨ LoadEnv.scan fuel ⟨data, false⟩ eof envs = .fuelOut := by
  intro fuel
  induction fuel with
  | zero => intro data eof envs _; exact Or.inr rfl
  | succ n ih =>
    intro data eof envs h
    cases hd : data.dropWhile (· != 10) with
    | nil =>
      have hread := ReadString_of_no_newline data false hd
      have hl : isBlankOrComment data :=
        h data (by rw [fileLines_of_no_newline data hd]; exact List.mem_singleton_self _)
      rw [isBlankOrComment_iff] at hl
      by_cases hnil : data.dropWhile isBlankByte = []
      · by_cases he : data = []
        · subst he
          exact Or.inr (scan_at_eof_fuelOut _ _ _)
        · exact Or.inl (scan_succ_panic
            (body_of_trim_panic hread (Or.inr rfl) (trimSpaces_of_blank data hnil he)) n)
      · have hhead : (data.dropWhile isBlankByte).head? = some 35 := by
          rcases hl with hl | hl
          · exact absurd hl hnil
          · exact hl
        have hb := @body_of_skip _ _ eof envs _ _ _ hread (Or.inr rfl)
          (trimSpaces_of_nonblank data hnil) (Or.inr hhead)
        right
        rw [scan_succ_next hb]
        exact scan_at_eof_fuelOut _ _ _
    | cons d post =>
      have hread := ReadString_of_newline data post d false hd
      have hfl := fileLines_of_newline data post d hd
      have hl : isBlankOrComment (data.takeWhile (· != 10)) :=
        h _ (by rw [hfl]; exact List.mem_cons_self _ _)
      rw [isBlankOrComment_iff] at hl
      by_cases hnil : (data.takeWhile (· != 10)).dropWhile isBlankByte = []
      · have h1 : (data.takeWhile (· != 10) ++ [10]).dropWhile isBlankByte = [] := by
          rw [dropWhile_append_of_nil _ _ _ hnil]
          decide
        exact Or.inl (scan_succ_panic
          (body_of_trim_panic hread (Or.inl rfl) (trimSpaces_of_blank _ h1 (by simp))) n)
      · have hhead : ((data.takeWhile (· != 10)).dropWhile isBlankByte).head? = some 35 := by
          rcases hl with hl | hl
          · exact absurd hl hnil
          · exact hl
        have h1 : (data.takeWhile (· != 10) ++ [10]).dropWhile isBlankByte
            = (data.takeWhile (· != 10)).dropWhile isBlankByte ++ [10] :=
          dropWhile_append_of_ne_nil _ _ _ hnil
        have h2 : (data.takeWhile (· != 10) ++ [10]).dropWhile isBlankByte ≠ [] := by
          rw [h1]; simp
        have h3 : ((data.takeWhile (· != 10) ++ [10]).dropWhile isBlankByte).head? = some 35 := by
          rw [h1]
          obtain ⟨c, t, hct⟩ := List.exists_cons_of_ne_nil hnil
          rw [hct] at hhead ⊢
          exact hhead
        have hb := @body_of_skip _ _ eof envs _ _ _ hread (Or.inl rfl)
          (trimSpaces_of_nonblank _ h2) (Or.inr h3)
        rw [scan_succ_next hb]
        exact ih post _ envs (fun l hlm => h l (by rw [hfl]; exact List.mem_cons_of_mem _ hlm))

/-! ## More about `trimSpaces` -/

theorem dropWhile_ne_nil_of_nonblank (b : GoString) (h : ∃ c ∈ b, isBlankByte c = false) :
    b.dropWhile isBlankByte ≠ [] := by
  intro hnil
  obtain ⟨c, hc, hcb⟩ := h
  have := List.dropWhile_eq_nil_iff.mp hnil c hc
  rw [hcb] at this
  exact Bool.false_ne_true this

theorem dropWhile_eq_nil_of_blank (b : GoString) (h : ∀ c ∈ b, isBlankByte c = true) :
    b.dropWhile isBlankByte = [] :=
  List.dropWhile_eq_nil_iff.mpr h

theorem getLast_dropWhile (p : UInt8 → Bool) (b : GoString) (h : b.dropWhile p ≠ []) :
    (b.dropWhile p).getLast? = b.getLast? := by
  have h1 := List.takeWhile_append_dropWhile p b
  have h2 := List.getLast?_append_of_ne_nil (b.takeWhile p) h
  rw [h1] at h2
  exact h2.symm

/-! ## `SplitN` at the first `=` and the remaining passes of the loop body -/

theorem dropWhile_ne_sep_eq_nil (s : GoString) (sep : UInt8) (h : sep ∉ s) :
    s.dropWhile (· != sep) = [] := by
  apply List.dropWhile_eq_nil_iff.mpr
  intro x hx
  have : x ≠ sep := fun hxs => h (hxs ▸ hx)
  simpa using this

theorem not_mem_takeWhile_ne (s : GoString) (sep : UInt8) : sep ∉ s.takeWhile (· != sep) := by
  intro hmem
  have := List.mem_takeWhile_imp hmem
  simp at this

theorem dropWhile_ne_sep_of_mem (s : GoString) (sep : UInt8) (h : sep ∈ s) :
    ∃ post, s.dropWhile (· != sep) = sep :: post := by
  cases hd : s.dropWhile (· != sep) with
  | nil =>
    have hall := List.dropWhile_eq_nil_iff.mp hd sep h
    simp at hall
  | cons d post =>
    have hd2 := dropWhile_head_false (· != sep) s hd
    have : d = sep := by simpa using hd2
    exact ⟨post, by rw [this]⟩

theorem SplitN_of_not_mem (s : GoString) (sep : UInt8) (h : sep ∉ s) :
    SplitN s sep 2 = [s] := by
  simp only [SplitN, dropWhile_ne_sep_eq_nil s sep h]

theorem SplitN_of_dropWhile (s post : GoString) (sep : UInt8)
    (h : s.dropWhile (· != sep) = sep :: post) :
    SplitN s sep 2 = [s.takeWhile (· != sep), post] := by
  simp only [SplitN, h]

theorem takeWhile_sep_dropWhile (s post : GoString) (sep : UInt8)
    (h : s.dropWhile (· != sep) = sep :: post) :
    s.takeWhile (· != sep) ++ [sep] ++ post = s := by
  have := List.takeWhile_append_dropWhile (· != sep) s
  rw [h] at this
  simpa using this

/-- A pass over a line without `=`, on which `trimSpaces` returns, ends in `continue` with
the map untouched. -/
theorem body_of_no_eq {r r1 : Reader} {eof : Bool} {envs : GoMap} {line line1 : GoString}
    {err : Option GoError} (hread : ReadString r 10 = (line, err, r1))
    (herr : err = none ∨ err = some GoError.EOF) (htrim : trimSpaces line = .ret line1)
    (hno : (61 : UInt8) ∉ line1) :
    LoadEnv.body r eof envs = .ret (.next r1 (if err ≠ none then true else eof) envs) := by
  have hne : ¬ (err ≠ none ∧ err ≠ some GoError.EOF) := by
    rcases herr with h | h <;> simp [h]
  simp [LoadEnv.body, hread, hne, htrim, Run.bind, SplitN_of_not_mem line1 61 hno]

/-- A pass over a line that `trimSpaces` leaves non-empty, not starting with `#` and with an
`=` stores the text before the first `=` as key and the text after it as value; it ends in
`break` when the end of the file was met and in the next pass otherwise. -/
theorem body_of_pair {r r1 : Reader} {eof : Bool} {envs : GoMap} {line line1 post : GoString}
    {err : Option GoError} (hread : ReadString r 10 = (line, err, r1))
    (herr : err = none ∨ err = some GoError.EOF) (htrim : trimSpaces line = .ret line1)
    (hskip : ¬ (line1.length = 0 ∨ line1.head? = some 35))
    (hsplit : line1.dropWhile (· != 61) = 61 :: post) :
    LoadEnv.body r eof envs =
      if (if err ≠ none then true else eof) = true
        then .ret (.brk (GoMap.assign envs (line1.takeWhile (· != 61)) post))
        else .ret (.next r1 (if err ≠ none then true else eof)
          (GoMap.assign envs (line1.takeWhile (· != 61)) post)) := by
  have hne : ¬ (err ≠ none ∧ err ≠ some GoError.EOF) := by
    rcases herr with h | h <;> simp [h]
  simp only [LoadEnv.body, hread, if_neg hne, htrim, Run.bind, if_neg hskip,
    SplitN_of_dropWhile line1 post 61 hsplit]
  simp

/-! ## The trim of the specification against the removal of leading blanks -/

theorem mem_dropWhile_iff_of_not (p : UInt8 → Bool) (l : GoString) (x : UInt8)
    (hx : p x = false) : x ∈ l.dropWhile p ↔ x ∈ l := by
  constructor
  · intro h
    exact (List.dropWhile_suffix p).subset h
  · intro h
    rw [← List.takeWhile_append_dropWhile p l] at h
    rcases List.mem_append.mp h with h1 | h1
    · have := List.mem_takeWhile_imp h1
      rw [hx] at this
      exact absurd this Bool.false_ne_true
    · exact h1

theorem mem_specTrim_iff (l : GoString) (x : UInt8) (hx : isBlankByte x = false) :
    x ∈ specTrim l ↔ x ∈ l := by
  unfold specTrim
  rw [List.mem_reverse, mem_dropWhile_iff_of_not _ _ _ hx, List.mem_reverse,
    mem_dropWhile_iff_of_not _ _ _ hx]

theorem specTrim_eq_nil_iff (l : GoString) :
    specTrim l = [] ↔ l.dropWhile isBlankByte = [] := by
  have h := specTrim_head l
  constructor
  · intro hs
    rw [hs] at h
    cases hd : l.dropWhile isBlankByte with
    | nil => rfl
    | cons c r => rw [hd] at h; simp at h
  · intro hd
    rw [hd] at h
    cases hs : specTrim l with
    | nil => rfl
    | cons c r => rw [hs] at h; simp at h

theorem length_eq_zero_or_head_iff (l : GoString) :
    (l.length = 0 ∨ l.head? = some 35) ↔ (l = [] ∨ l.head? = some 35) := by
  rw [List.length_eq_zero]

/-! ## One entry saved and loaded again -/

theorem takeWhile_dropWhile_append_sep (k v : GoString) (sep : UInt8) (h : sep ∉ k) :
    (k ++ sep :: v).takeWhile (· != sep) = k ∧ (k ++ sep :: v).dropWhile (· != sep) = sep :: v := by
  induction k with
  | nil =>
    have hs : ¬ ((sep != sep) = true) := by simp
    exact ⟨takeWhile_cons_neg (· != sep) sep v hs, dropWhile_cons_neg (· != sep) sep v hs⟩
  | cons c r ih =>
    have hc : (c != sep) = true := by
      have : c ≠ sep := fun hcs => h (hcs ▸ List.mem_cons_self c r)
      simpa using this
    have hr : sep ∉ r := fun hm => h (List.mem_cons_of_mem c hm)
    obtain ⟨h1, h2⟩ := ih hr
    constructor
    · rw [List.cons_append, takeWhile_cons_pos (· != sep) c _ hc, h1]
    · rw [List.cons_append, dropWhile_cons_pos (· != sep) c _ hc, h2]

/-- The scan loop over the text `k=v` of one entry, as `SaveEnv` writes it: one pass, which
stores `k ↦ v` and leaves through `break`. -/
theorem scan_of_entryText (k v : GoString) (envs : GoMap) (hkeq : (61 : UInt8) ∉ k)
    (hknl : (10 : UInt8) ∉ k) (hvnl : (10 : UInt8) ∉ v)
    (hhead : ∀ c, k.head? = some c → isBlankByte c = false ∧ c ≠ 35) :
    LoadEnv.scan 1 ⟨entryText (k, v), false⟩ false envs = .ret (GoMap.assign envs k v, none) := by
  have hascii : ascii "=" = [61] := by decide
  have hcontent : entryText (k, v) = k ++ 61 :: v := by
    simp [entryText, hascii]
  have hnl : (10 : UInt8) ∉ entryText (k, v) := by
    rw [hcontent]
    intro hm
    rcases List.mem_append.mp hm with h1 | h1
    · exact hknl h1
    · rcases List.mem_cons.mp h1 with h2 | h2
      · exact absurd h2 (by decide)
      · exact hvnl h2
  have hread := ReadString_of_no_newline (entryText (k, v)) false
    (dropWhile_ne_sep_eq_nil _ 10 hnl)
  obtain ⟨c, rest, hcr, hcb, hc35⟩ : ∃ c rest, entryText (k, v) = c :: rest
      ∧ isBlankByte c = false ∧ c ≠ 35 := by
    rw [hcontent]
    cases k with
    | nil => exact ⟨61, v, rfl, by decide, by decide⟩
    | cons c r =>
      obtain ⟨h1, h2⟩ := hhead c rfl
      exact ⟨c, r ++ 61 :: v, rfl, h1, h2⟩
  have hdw : (entryText (k, v)).dropWhile isBlankByte = entryText (k, v) := by
    rw [hcr]
    exact dropWhile_cons_neg isBlankByte c rest (by simp [hcb])
  have htrim : trimSpaces (entryText (k, v)) = .ret (entryText (k, v)) := by
    have := trimSpaces_of_nonblank (entryText (k, v)) (by rw [hdw, hcr]; simp)
    rw [hdw] at this
    exact this
  have hskip : ¬ ((entryText (k, v)).length = 0 ∨ (entryText (k, v)).head? = some 35) := by
    rw [hcr]
    simp [hc35]
  obtain ⟨htw, hdrop⟩ := takeWhile_dropWhile_append_sep k v 61 hkeq
  rw [← hcontent] at htw hdrop
  have hb := @body_of_pair _ _ false envs _ _ v _ hread (Or.inr rfl) htrim hskip hdrop
  rw [htw] at hb
  simp only [LoadEnv.scan, hb, Run.bind]
  simp

/-! ## When the scan loop leaves -/

theorem lines_of_no_newline (data : GoString) (h : data.dropWhile (· != 10) = []) :
    terminatedLines data = [] ∧ afterLastNewline data = data := by
  simp [terminatedLines, afterLastNewline, fileLines_of_no_newline data h]

theorem lines_of_newline (data post : GoString) (d : UInt8)
    (h : data.dropWhile (· != 10) = d :: post) :
    terminatedLines data = data.takeWhile (· != 10) :: terminatedLines post
      ∧ afterLastNewline data = afterLastNewline post := by
  have hfl := fileLines_of_newline data post d h
  have hne := fileLines_ne_nil post
  obtain ⟨l, ls, hls⟩ := List.exists_cons_of_ne_nil hne
  simp [terminatedLines, afterLastNewline, hfl, hls]

theorem ReturnCondition_of_no_newline (data : GoString) (h : data.dropWhile (· != 10) = []) :
    ReturnCondition data ↔
      (data.dropWhile isBlankByte ≠ [] ∧ (data.dropWhile isBlankByte).head? ≠ some 35
        ∧ (61 : UInt8) ∈ data.dropWhile isBlankByte) := by
  obtain ⟨h1, h2⟩ := lines_of_no_newline data h
  simp [ReturnCondition, h1, h2]

theorem ReturnCondition_of_newline (data post : GoString) (d : UInt8)
    (h : data.dropWhile (· != 10) = d :: post) :
    ReturnCondition data ↔
      (¬ (∀ c ∈ data.takeWhile (· != 10) ++ [10], isBlankByte c = true)
        ∧ ReturnCondition post) := by
  obtain ⟨h1, h2⟩ := lines_of_newline data post d h
  simp only [ReturnCondition, h1, h2, List.mem_cons, forall_eq_or_imp]
  tauto

/-- The pass over a newline-terminated line that is not made of blanks only goes on to the
next line, with the end-of-file flag still down. -/
theorem body_next_of_terminated (data post : GoString) (d : UInt8) (envs : GoMap)
    (h : data.dropWhile (· != 10) = d :: post)
    (hnb : ¬ (∀ c ∈ data.takeWhile (· != 10) ++ [10], isBlankByte c = true)) :
    ∃ envs1, LoadEnv.body ⟨data, false⟩ false envs = .ret (.next ⟨post, false⟩ false envs1) := by
  have hread := ReadString_of_newline data post d false h
  have hne : (data.takeWhile (· != 10) ++ [10]).dropWhile isBlankByte ≠ [] :=
    fun hnil => hnb (List.dropWhile_eq_nil_iff.mp hnil)
  have htrim := trimSpaces_of_nonblank _ hne
  have hflag : (if (none : Option GoError) ≠ none then true else false) = false := by simp
  by_cases hskip : ((data.takeWhile (· != 10) ++ [10]).dropWhile isBlankByte).length = 0
      ∨ ((data.takeWhile (· != 10) ++ [10]).dropWhile isBlankByte).head? = some 35
  · have hb := @body_of_skip _ _ false envs _ _ _ hread (Or.inl rfl) htrim hskip
    rw [hflag] at hb
    exact ⟨envs, hb⟩
  · by_cases hmem : (61 : UInt8) ∈ (data.takeWhile (· != 10) ++ [10]).dropWhile isBlankByte
    · obtain ⟨p, hp⟩ := dropWhile_ne_sep_of_mem _ 61 hmem
      have hb := @body_of_pair _ _ false envs _ _ p _ hread (Or.inl rfl) htrim hskip hp
      rw [hflag] at hb
      exact ⟨_, by simpa using hb⟩
    · have hb := @body_of_no_eq _ _ false envs _ _ _ hread (Or.inl rfl) htrim hmem
      rw [hflag] at hb
      exact ⟨envs, hb⟩

theorem fileLines_length_of_no_newline (data : GoString) (h : data.dropWhile (· != 10) = []) :
    (fileLines data).length = 1 := by
  rw [fileLines_of_no_newline data h]
  rfl

theorem fileLines_length_of_newline (data post : GoString) (d : UInt8)
    (h : data.dropWhile (· != 10) = d :: post) :
    (fileLines data).length = (fileLines post).length + 1 := by
  rw [fileLines_of_newline data post d h]
  rfl

theorem fileLines_length_pos (data : GoString) : 0 < (fileLines data).length :=
  List.length_pos.mpr (fileLines_ne_nil data)

/-- Under the return condition the loop leaves through `break` after one pass per line. -/
theorem scan_ret_of_ReturnCondition : ∀ (n : Nat) (data : GoString) (envs : GoMap),
    (fileLines data).length = n + 1 → ReturnCondition data →
    ∃ m, LoadEnv.scan (n + 1) ⟨data, false⟩ false envs = .ret (m, none) := by
  intro n
  induction n with
  | zero =>
    intro data envs hlen hcond
    cases hd : data.dropWhile (· != 10) with
    | nil =>
      obtain ⟨hne, hhead, hmem⟩ := (ReturnCondition_of_no_newline data hd).mp hcond
      have hread := ReadString_at_eof data hd
      have htrim := trimSpaces_of_nonblank data hne
      have hskip : ¬ ((data.dropWhile isBlankByte).length = 0
          ∨ (data.dropWhile isBlankByte).head? = some 35) := by
        rw [length_eq_zero_or_head_iff]
        exact fun h => h.elim hne hhead
      obtain ⟨p, hp⟩ := dropWhile_ne_sep_of_mem _ 61 hmem
      have hb := @body_of_pair _ _ false envs _ _ p _ hread (Or.inr rfl) htrim hskip hp
      refine ⟨GoMap.assign envs ((data.dropWhile isBlankByte).takeWhile (· != 61)) p, ?_⟩
      simp only [LoadEnv.scan, hb, Run.bind]
      simp
    | cons d post =>
      have := fileLines_length_of_newline data post d hd
      have := fileLines_length_pos post
      omega
  | succ k ih =>
    intro data envs hlen hcond
    cases hd : data.dropWhile (· != 10) with
    | nil =>
      have := fileLines_length_of_no_newline data hd
      omega
    | cons d post =>
      obtain ⟨hnb, hpost⟩ := (ReturnCondition_of_newline data post d hd).mp hcond
      obtain ⟨envs1, hb⟩ := body_next_of_terminated data post d envs hd hnb
      have hlen2 : (fileLines post).length = k + 1 := by
        have := fileLines_length_of_newline data post d hd
        omega
      obtain ⟨m, hm⟩ := ih post envs1 hlen2 hpost
      exact ⟨m, by rw [scan_succ_next hb, hm]⟩

/-- Without the return condition the loop never leaves through `break`: it panics on a line
of blanks or runs forever after the last line. -/
theorem scan_not_ret_of_not_ReturnCondition : ∀ (fuel : Nat) (data : GoString) (envs : GoMap),
    ¬ ReturnCondition data →
    LoadEnv.scan fuel ⟨data, false⟩ false envs = .panic
      ∨ LoadEnv.scan fuel ⟨data, false⟩ false envs = .fuelOut := by
  intro fuel
  induction fuel with
  | zero => intro data envs _; exact Or.inr rfl
  | succ n ih =>
    intro data envs hcond
    cases hd : data.dropWhile (· != 10) with
    | nil =>
      rw [ReturnCondition_of_no_newline data hd] at hcond
      have hread := ReadString_at_eof data hd
      by_cases hnil : data.dropWhile isBlankByte = []
      · by_cases he : data = []
        · subst he
          exact Or.inr (scan_at_eof_fuelOut _ _ _)
        · exact Or.inl (scan_succ_panic
            (body_of_trim_panic hread (Or.inr rfl) (trimSpaces_of_blank data hnil he)) n)
      · have htrim := trimSpaces_of_nonblank data hnil
        right
        by_cases hhead : (data.dropWhile isBlankByte).head? = some 35
        · have hb := @body_of_skip _ _ false envs _ _ _ hread (Or.inr rfl) htrim (Or.inr hhead)
          rw [scan_succ_next hb]
          exact scan_at_eof_fuelOut _ _ _
        · have hno : (61 : UInt8) ∉ data.dropWhile isBlankByte :=
            fun hm => hcond ⟨hnil, hhead, hm⟩
          have hb := @body_of_no_eq _ _ false envs _ _ _ hread (Or.inr rfl) htrim hno
          rw [scan_succ_next hb]
          exact scan_at_eof_fuelOut _ _ _
    | cons d post =>
      rw [ReturnCondition_of_newline data post d hd] at hcond
      have hread := ReadString_of_newline data post d false hd
      by_cases hblank : ∀ c ∈ data.takeWhile (· != 10) ++ [10], isBlankByte c = true
      · exact Or.inl (scan_succ_panic (body_of_trim_panic hread (Or.inl rfl)
          (trimSpaces_of_blank _ (dropWhile_eq_nil_of_blank _ hblank) (by simp))) n)
      · obtain ⟨envs1, hb⟩ := body_next_of_terminated data post d envs hd hblank
        rw [scan_succ_next hb]
        exact ih post envs1 (fun hp => hcond ⟨hblank, hp⟩)

theorem afterLastNewline_of_ends_newline : ∀ (n : Nat) (content : GoString),
    content.length ≤ n → content.getLast? = some 10 → afterLastNewline content = [] := by
  intro n
  induction n with
  | zero =>
    intro content hlen hlast
    have : content = [] := List.length_eq_zero.mp (by omega)
    rw [this] at hlast
    simp at hlast
  | succ k ih =>
    intro content hlen hlast
    obtain ⟨post, hpost⟩ := dropWhile_ne_sep_of_mem content 10 (List.mem_of_getLast?_eq_some hlast)
    rw [(lines_of_newline content post 10 hpost).2]
    have hsplit := takeWhile_sep_dropWhile content post 10 hpost
    by_cases hp : post = []
    · subst hp
      rfl
    · apply ih post
      · have := congrArg List.length hsplit
        simp only [List.length_append, List.length_cons, List.length_nil] at this
        omega
      · rw [← hsplit, List.getLast?_append_of_ne_nil _ hp] at hlast
        exact hlast

theorem not_ReturnCondition_of_ends_newline (content : GoString)
    (h : content = [] ∨ content.getLast? = some 10) : ¬ ReturnCondition content := by
  intro hcond
  have hnil : afterLastNewline content = [] := by
    rcases h with h | h
    · rw [h]; rfl
    · exact afterLastNewline_of_ends_newline content.length content (Nat.le_refl _) h
  have := hcond.2.1
  rw [hnil] at this
  exact this rfl

/-! ## What a pass of the loop body can do to the map -/

theorem trimSpaces_ret_ne_nil {line line1 : GoString} (h : trimSpaces line = .ret line1)
    (hne : line1 ≠ []) :
    line.dropWhile isBlankByte ≠ [] ∧ line1 = line.dropWhile isBlankByte := by
  by_cases hd : line.dropWhile isBlankByte = []
  · by_cases hl : line = []
    · subst hl
      rw [trimSpaces_nil] at h
      injection h with h1
      exact absurd h1.symm hne
    · rw [trimSpaces_of_blank line hd hl] at h
      exact Run.noConfusion h
  · rw [trimSpaces_of_nonblank line hd] at h
    injection h with h1
    exact ⟨hd, h1.symm⟩

/-- A pass of the loop body that does not panic either returns the read error, or goes on
with the map untouched, or stores the pair cut at the first `=` of a line that, leading blanks
removed, is not empty and does not start with `#`. -/
theorem body_ret_cases (r : Reader) (eof : Bool) (envs : GoMap) (x : LoopExit)
    (h : LoadEnv.body r eof envs = .ret x) :
    (x = .retErr envs (ReadString r 10).2.1 ∧ (ReadString r 10).2.1 ≠ none
        ∧ (ReadString r 10).2.1 ≠ some GoError.EOF)
    ∨ (∃ eof1, x = .next (ReadString r 10).2.2 eof1 envs)
    ∨ (∃ post eof1,
        ((ReadString r 10).2.1 = none ∨ (ReadString r 10).2.1 = some GoError.EOF)
        ∧ (ReadString r 10).1.dropWhile isBlankByte ≠ []
        ∧ ((ReadString r 10).1.dropWhile isBlankByte).head? ≠ some 35
        ∧ ((ReadString r 10).1.dropWhile isBlankByte).dropWhile (· != 61) = 61 :: post
        ∧ (x = .brk (GoMap.assign envs
              (((ReadString r 10).1.dropWhile isBlankByte).takeWhile (· != 61)) post)
            ∨ x = .next (ReadString r 10).2.2 eof1 (GoMap.assign envs
              (((ReadString r 10).1.dropWhile isBlankByte).takeWhile (· != 61)) post))) := by
  rcases hrs : ReadString r 10 with ⟨line, err, r1⟩
  simp only
  by_cases hne : err ≠ none ∧ err ≠ some GoError.EOF
  · left
    have hb : LoadEnv.body r eof envs = .ret (.retErr envs err) := by
      simp only [LoadEnv.body, hrs, if_pos hne]
    rw [hb] at h
    injection h with h1
    exact ⟨h1.symm, hne.1, hne.2⟩
  · have herr : err = none ∨ err = some GoError.EOF := by
      by_cases h1 : err = none
      · exact Or.inl h1
      · by_cases h2 : err = some GoError.EOF
        · exact Or.inr h2
        · exact absurd ⟨h1, h2⟩ hne
    right
    by_cases hd : line.dropWhile isBlankByte = []
    · by_cases hl : line = []
      · left
        subst hl
        have hb := @body_of_skip r r1 eof envs [] [] err hrs herr trimSpaces_nil (Or.inl rfl)
        rw [hb] at h
        injection h with h1
        exact ⟨_, h1.symm⟩
      · have hb := @body_of_trim_panic r r1 eof envs line err hrs herr
          (trimSpaces_of_blank line hd hl)
        rw [hb] at h
        exact Run.noConfusion h
    · have htrim := trimSpaces_of_nonblank line hd
      by_cases hskip : (line.dropWhile isBlankByte).length = 0
          ∨ (line.dropWhile isBlankByte).head? = some 35
      · left
        have hb := @body_of_skip r r1 eof envs line _ err hrs herr htrim hskip
        rw [hb] at h
        injection h with h1
        exact ⟨_, h1.symm⟩
      · by_cases hmem : (61 : UInt8) ∈ line.dropWhile isBlankByte
        · right
          obtain ⟨post, hpost⟩ := dropWhile_ne_sep_of_mem _ 61 hmem
          have hb := @body_of_pair r r1 eof envs line _ post err hrs herr htrim hskip hpost
          refine ⟨post, (if err ≠ none then true else eof), herr, hd,
            fun h35 => hskip (Or.inr h35), hpost, ?_⟩
          by_cases he : (if err ≠ none then true else eof) = true
          · rw [if_pos he] at hb
            rw [hb] at h
            injection h with h1
            exact Or.inl h1.symm
          · rw [if_neg he] at hb
            rw [hb] at h
            injection h with h1
            exact Or.inr h1.symm
        · left
          have hb := @body_of_no_eq r r1 eof envs line _ err hrs herr htrim hmem
          rw [hb] at h
          injection h with h1
          exact ⟨_, h1.symm⟩

/-- Induction over the passes of the scan loop: a property of reader and map that every pass
keeps, and that gives `Q` of the map when the loop leaves, gives `Q` of the result. -/
theorem scan_invariant (I : Reader → GoMap → Prop) (Q : GoMap → Prop)
    (hstep : ∀ r eof envs x, I r envs → LoadEnv.body r eof envs = .ret x →
      (∀ r1 eof1 envs1, x = .next r1 eof1 envs1 → I r1 envs1)
      ∧ (∀ envs1, x = .brk envs1 → Q envs1)
      ∧ (∀ envs1 err, x = .retErr envs1 err → Q envs1)) :
    ∀ (fuel : Nat) (r : Reader) (eof : Bool) (envs : GoMap) (res : GoMap × Option GoError),
      I r envs → LoadEnv.scan fuel r eof envs = .ret res → Q res.1 := by
  intro fuel
  induction fuel with
  | zero =>
    intro r eof envs res _ h
    exact Run.noConfusion h
  | succ n ih =>
    intro r eof envs res hI h
    unfold LoadEnv.scan at h
    cases hb : LoadEnv.body r eof envs with
    | panic => rw [hb] at h; exact Run.noConfusion h
    | fuelOut => rw [hb] at h; exact Run.noConfusion h
    | ret x =>
      rw [hb] at h
      obtain ⟨h1, h2, h3⟩ := hstep r eof envs x hI hb
      cases x with
      | next r1 eof1 envs1 => exact ih r1 eof1 envs1 res (h1 _ _ _ rfl) h
      | brk envs1 =>
        have : res = (envs1, none) := by
          simp only [Run.bind] at h
          injection h with h4
          exact h4.symm
        rw [this]
        exact h2 _ rfl
      | retErr envs1 err =>
        have : res = (envs1, err) := by
          simp only [Run.bind] at h
          injection h with h4
          exact h4.symm
        rw [this]
        exact h3 _ _ rfl

/-! ## Keys of the loaded map and the copy into the environment -/

theorem mem_assign (m : GoMap) (k v : GoString) (e : GoString × GoString)
    (h : e ∈ GoMap.assign m k v) : e = (k, v) ∨ e ∈ m := by
  induction m with
  | nil =>
    simp only [GoMap.assign, List.mem_singleton] at h
    exact Or.inl h
  | cons a rest ih =>
    obtain ⟨k1, v1⟩ := a
    by_cases hk : k1 = k
    · simp only [GoMap.assign, hk, if_true, List.mem_cons] at h
      rcases h with h | h
      · exact Or.inl h
      · exact Or.inr (List.mem_cons_of_mem _ h)
    · simp only [GoMap.assign, hk, if_false, List.mem_cons] at h
      rcases h with h | h
      · exact Or.inr (h ▸ List.mem_cons_self _ _)
      · rcases ih h with h1 | h1
        · exact Or.inl h1
        · exact Or.inr (List.mem_cons_of_mem _ h1)

theorem key_mem_assign (m : GoMap) (k v k2 : GoString)
    (h : k2 ∈ (GoMap.assign m k v).map Prod.fst) : k2 = k ∨ k2 ∈ m.map Prod.fst := by
  obtain ⟨e, he, hfst⟩ := List.mem_map.mp h
  rcases mem_assign m k v e he with h1 | h1
  · left
    rw [← hfst, h1]
  · right
    exact List.mem_map.mpr ⟨e, h1, hfst⟩

theorem Valid_assign (m : GoMap) (k v : GoString) (h : GoMap.Valid m) :
    GoMap.Valid (GoMap.assign m k v) := by
  unfold GoMap.Valid at h ⊢
  induction m with
  | nil => simp [GoMap.assign]
  | cons a rest ih =>
    obtain ⟨k1, v1⟩ := a
    simp only [List.map_cons, List.nodup_cons] at h
    by_cases hk : k1 = k
    · subst hk
      simp only [GoMap.assign, if_true, List.map_cons, List.nodup_cons]
      exact h
    · simp only [GoMap.assign, hk, if_false, List.map_cons, List.nodup_cons]
      refine ⟨fun hmem => ?_, ih h.2⟩
      rcases key_mem_assign rest k v k1 hmem with h1 | h1
      · exact hk h1
      · exact h.1 h1

theorem mem_of_lookup (m : GoMap) (k v : GoString) (h : GoMap.lookup m k = some v) :
    (k, v) ∈ m := by
  induction m with
  | nil => simp [GoMap.lookup] at h
  | cons a rest ih =>
    obtain ⟨k1, v1⟩ := a
    by_cases hk : k1 = k
    · simp only [GoMap.lookup, hk, if_true, Option.some.injEq] at h
      rw [hk, h]
      exact List.mem_cons_self _ _
    · simp only [GoMap.lookup, hk, if_false] at h
      exact List.mem_cons_of_mem _ (ih h)

theorem Setenv_lookup_ne (environ : GoMap) (k v k2 : GoString) (h : k ≠ k2) :
    GoMap.lookup (Setenv environ k v).1 k2 = GoMap.lookup environ k2 := by
  unfold Setenv
  split
  · rfl
  · exact GoMap.lookup_assign_ne environ v h

theorem Setenv_accepts (environ : GoMap) (k v : GoString) (hk : k ≠ [])
    (hkeq : (61 : UInt8) ∉ k) (hk0 : (0 : UInt8) ∉ k) (hv0 : (0 : UInt8) ∉ v) :
    Setenv environ k v = (GoMap.assign environ k v, none) := by
  have : ¬ (k.length = 0 ∨ (61 : UInt8) ∈ k ∨ (0 : UInt8) ∈ k ∨ (0 : UInt8) ∈ v) := by
    rw [List.length_eq_zero]
    tauto
  simp only [Setenv, if_neg this]

theorem mirror_lookup_of_not_mem : ∀ (l : List (GoString × GoString)) (environ : GoMap)
    (k : GoString), k ∉ l.map Prod.fst →
    GoMap.lookup (LoadEnv.mirror environ l) k = GoMap.lookup environ k := by
  intro l
  induction l with
  | nil => intro environ k _; rfl
  | cons a rest ih =>
    intro environ k hk
    obtain ⟨k1, v1⟩ := a
    simp only [List.map_cons, List.mem_cons, not_or] at hk
    simp only [LoadEnv.mirror]
    rw [ih _ k hk.2]
    exact Setenv_lookup_ne environ k1 v1 k (fun h => hk.1 h.symm)

/-- The copy loop at the end of `LoadEnv` sets every entry that `os.Setenv` accepts. -/
theorem mirror_lookup_of_mem : ∀ (l : List (GoString × GoString)) (environ : GoMap)
    (k v : GoString), (l.map Prod.fst).Nodup → (k, v) ∈ l → k ≠ [] → (61 : UInt8) ∉ k →
    (0 : UInt8) ∉ k → (0 : UInt8) ∉ v →
    GoMap.lookup (LoadEnv.mirror environ l) k = some v := by
  intro l
  induction l with
  | nil => intro environ k v _ hmem; simp at hmem
  | cons a rest ih =>
    intro environ k v hnd hmem hk hkeq hk0 hv0
    obtain ⟨k1, v1⟩ := a
    simp only [List.map_cons, List.nodup_cons] at hnd
    simp only [LoadEnv.mirror]
    rcases List.mem_cons.mp hmem with h | h
    · injection h with h1 h2
      subst h1
      subst h2
      rw [mirror_lookup_of_not_mem rest _ k hnd.1, Setenv_accepts environ k v hk hkeq hk0 hv0]
      exact GoMap.lookup_assign_self environ k v
    · exact ih _ k v hnd.2 h hk hkeq hk0 hv0

/-- The map the scan loop builds has one entry per key, and no key holds an `=`. -/
theorem scan_keys (fuel : Nat) (r : Reader) (eof : Bool) (res : GoMap × Option GoError)
    (h : LoadEnv.scan fuel r eof [] = .ret res) :
    GoMap.Valid res.1 ∧ ∀ e ∈ res.1, (61 : UInt8) ∉ e.1 := by
  refine scan_invariant (fun _ m => GoMap.Valid m ∧ ∀ e ∈ m, (61 : UInt8) ∉ e.1)
    (fun m => GoMap.Valid m ∧ ∀ e ∈ m, (61 : UInt8) ∉ e.1) ?_ fuel r eof [] res
    ⟨by simp [GoMap.Valid], by simp⟩ h
  intro r eof envs x hI hb
  have hassign : ∀ (line : GoString) (post : GoString),
      GoMap.Valid (GoMap.assign envs (line.takeWhile (· != 61)) post)
        ∧ ∀ e ∈ GoMap.assign envs (line.takeWhile (· != 61)) post, (61 : UInt8) ∉ e.1 := by
    intro line post
    refine ⟨Valid_assign _ _ _ hI.1, fun e he => ?_⟩
    rcases mem_assign _ _ _ e he with h1 | h1
    · rw [h1]
      exact not_mem_takeWhile_ne line 61
    · exact hI.2 e h1
  rcases body_ret_cases r eof envs x hb with ⟨hx, _, _⟩ | ⟨eof1, hx⟩
      | ⟨post, eof1, _, _, _, _, hx | hx⟩
  · subst hx
    exact ⟨fun _ _ _ hn => LoopExit.noConfusion hn, fun _ hn => LoopExit.noConfusion hn,
      fun envs1 err hn => by injection hn with h1 _; rw [← h1]; exact hI⟩
  · subst hx
    exact ⟨fun r1 e1 envs1 hn => by injection hn with _ _ h1; rw [← h1]; exact hI,
      fun _ hn => LoopExit.noConfusion hn, fun _ _ hn => LoopExit.noConfusion hn⟩
  · subst hx
    exact ⟨fun _ _ _ hn => LoopExit.noConfusion hn,
      fun envs1 hn => by injection hn with h1; rw [← h1]; exact hassign _ _,
      fun _ _ hn => LoopExit.noConfusion hn⟩
  · subst hx
    exact ⟨fun r1 e1 envs1 hn => by injection hn with _ _ h1; rw [← h1]; exact hassign _ _,
      fun _ hn => LoopExit.noConfusion hn, fun _ _ hn => LoopExit.noConfusion hn⟩

/-- The ways `LoadEnv` returns: the open reports that the file does not exist; or the open
fails otherwise; or the scan loop left, over a reader that delivers the whole file or, under a
read failure, a prefix of it. -/
theorem LoadEnv_ret_cases (fuel : Nat) (ro : GoMap → List (GoString × GoString))
    (io : IOFaults) (w w1 : World) (e : Option GoError)
    (h : LoadEnv fuel ro io w = .ret (w1, e)) :
    (GoMap.lookup w.files w.envPath = none ∧ io.openFails = false ∧ w1.Envs = some []
        ∧ e = none)
    ∨ (io.openFails = true ∧ w1.Envs = some [] ∧ e = some GoError.openFailed)
    ∨ (∃ content r m, GoMap.lookup w.files w.envPath = some content ∧ io.openFails = false
        ∧ ((io.readFails = none ∧ r = ⟨content, false⟩)
            ∨ ∃ n, io.readFails = some n ∧ r = ⟨content.take n, true⟩)
        ∧ LoadEnv.scan fuel r false [] = .ret (m, e) ∧ w1.Envs = some m
        ∧ (e = none → w1.environ = LoadEnv.mirror w.environ (ro m))) := by
  unfold LoadEnv at h
  cases hf : GoMap.lookup w.files w.envPath with
  | none =>
    rw [hf] at h
    by_cases ho : io.openFails = true
    · right
      left
      simp only [ho, if_true, Run.ret.injEq, Prod.mk.injEq] at h
      exact ⟨ho, by rw [← h.1], h.2.symm⟩
    · left
      simp only [ho, Bool.false_eq_true, if_false, Run.ret.injEq, Prod.mk.injEq] at h
      exact ⟨rfl, by simpa using ho, by rw [← h.1], h.2.symm⟩
  | some content =>
    rw [hf] at h
    right
    by_cases ho : io.openFails = true
    · left
      simp only [ho, if_true, Run.ret.injEq, Prod.mk.injEq] at h
      exact ⟨ho, by rw [← h.1], h.2.symm⟩
    · right
      simp only [ho, Bool.false_eq_true, if_false] at h
      have hr : ∃ r, r = (match io.readFails with
          | none => (⟨content, false⟩ : Reader)
          | some n => ⟨content.take n, true⟩)
          ∧ ((io.readFails = none ∧ r = ⟨content, false⟩)
            ∨ ∃ n, io.readFails = some n ∧ r = ⟨content.take n, true⟩) := by
        cases hrf : io.readFails with
        | none => exact ⟨_, rfl, Or.inl ⟨rfl, rfl⟩⟩
        | some n => exact ⟨_, rfl, Or.inr ⟨n, rfl, rfl⟩⟩
      obtain ⟨r, hreq, hrcase⟩ := hr
      rw [← hreq] at h
      cases hs : LoadEnv.scan fuel r false [] with
      | panic => rw [hs] at h; exact Run.noConfusion h
      | fuelOut => rw [hs] at h; exact Run.noConfusion h
      | ret res =>
        rw [hs] at h
        obtain ⟨m, e2⟩ := res
        simp only [Run.bind] at h
        cases e2 with
        | none =>
          simp only [Run.ret.injEq, Prod.mk.injEq] at h
          refine ⟨content, r, m, rfl, by simpa using ho, hrcase, ?_, by rw [← h.1],
            fun _ => by rw [← h.1]⟩
          rw [← h.2]
          exact hs
        | some err =>
          simp only [Run.ret.injEq, Prod.mk.injEq] at h
          refine ⟨content, r, m, rfl, by simpa using ho, hrcase, ?_, by rw [← h.1],
            fun he => ?_⟩
          · rw [← h.2]
            exact hs
          · rw [← h.2] at he
            exact Option.noConfusion he

/-! ## Keys of the loaded map come from lines of the file -/

theorem specTrim_decomp (l : GoString) :
    ∃ t, l.dropWhile isBlankByte = specTrim l ++ t ∧ ∀ c ∈ t, isBlankByte c = true := by
  refine ⟨((l.dropWhile isBlankByte).reverse.takeWhile isBlankByte).reverse, ?_, ?_⟩
  · have h := List.takeWhile_append_dropWhile isBlankByte (l.dropWhile isBlankByte).reverse
    have h2 := congrArg List.reverse h
    rw [List.reverse_append, List.reverse_reverse] at h2
    exact h2.symm
  · intro c hc
    exact List.mem_takeWhile_imp (List.mem_reverse.mp hc)

theorem specTrim_append_blank (l : GoString) (c : UInt8) (hc : isBlankByte c = true) :
    specTrim (l ++ [c]) = specTrim l := by
  unfold specTrim
  by_cases hd : l.dropWhile isBlankByte = []
  · rw [dropWhile_append_of_nil _ _ _ hd, dropWhile_cons_pos isBlankByte c [] hc, hd]
    rfl
  · rw [dropWhile_append_of_ne_nil _ _ _ hd, List.reverse_append, List.reverse_singleton,
      List.singleton_append, dropWhile_cons_pos isBlankByte c _ hc]

theorem takeWhile_append_of_mem (a b : GoString) (sep : UInt8) (h : sep ∈ a) :
    (a ++ b).takeWhile (· != sep) = a.takeWhile (· != sep) := by
  induction a with
  | nil => simp at h
  | cons c r ih =>
    by_cases hc : (c != sep) = true
    · have hr : sep ∈ r := by
        rcases List.mem_cons.mp h with h1 | h1
        · rw [h1] at hc
          simp at hc
        · exact h1
      rw [List.cons_append, takeWhile_cons_pos (· != sep) c _ hc,
        takeWhile_cons_pos (· != sep) c _ hc, ih hr]
    · rw [List.cons_append, takeWhile_cons_neg (· != sep) c _ hc,
        takeWhile_cons_neg (· != sep) c _ hc]

/-- The key the loop stores for a line is the key the specification gives to that line. -/
theorem specKey_of_dropWhile (l : GoString) (hne : l.dropWhile isBlankByte ≠ [])
    (hhead : (l.dropWhile isBlankByte).head? ≠ some 35)
    (hmem : (61 : UInt8) ∈ l.dropWhile isBlankByte) :
    specKey l = some ((l.dropWhile isBlankByte).takeWhile (· != 61)) := by
  have h1 : ¬ (specTrim l = [] ∨ (specTrim l).head? = some 35) := by
    rw [specTrim_eq_nil_iff, specTrim_head]
    exact fun h => h.elim hne hhead
  have h2 : (61 : UInt8) ∈ specTrim l :=
    (mem_specTrim_iff l 61 (by decide)).mpr
      ((mem_dropWhile_iff_of_not isBlankByte l 61 (by decide)).mp hmem)
  obtain ⟨t, ht, _⟩ := specTrim_decomp l
  simp only [specKey, if_neg h1, if_pos h2]
  rw [ht, takeWhile_append_of_mem _ _ _ h2]

theorem specKey_append_newline (l : GoString) : specKey (l ++ [10]) = specKey l := by
  simp only [specKey, specTrim_append_blank l 10 (by decide)]

theorem terminatedLines_subset (content l : GoString) (h : l ∈ terminatedLines content) :
    l ∈ fileLines content :=
  List.dropLast_subset _ h

theorem afterLastNewline_mem (content : GoString) :
    afterLastNewline content ∈ fileLines content := by
  unfold afterLastNewline
  cases hl : (fileLines content).getLast? with
  | none => exact absurd (List.getLast?_eq_none_iff.mp hl) (fileLines_ne_nil content)
  | some x => exact List.mem_of_getLast?_eq_some hl

theorem terminatedLines_append : ∀ (n : Nat) (a t l : GoString), a.length ≤ n →
    l ∈ terminatedLines a → l ∈ terminatedLines (a ++ t) := by
  intro n
  induction n with
  | zero =>
    intro a t l hlen hl
    have : a = [] := List.length_eq_zero.mp (by omega)
    subst this
    simp [terminatedLines, fileLines] at hl
  | succ k ih =>
    intro a t l hlen hl
    cases hd : a.dropWhile (· != 10) with
    | nil =>
      rw [(lines_of_no_newline a hd).1] at hl
      simp at hl
    | cons d post =>
      have hd10 := newline_of_dropWhile hd
      subst hd10
      have hsplit := takeWhile_sep_dropWhile a post 10 hd
      have hat : a ++ t = a.takeWhile (· != 10) ++ 10 :: (post ++ t) := by
        conv => lhs; rw [← hsplit]
        simp
      obtain ⟨h1, h2⟩ := takeWhile_dropWhile_append_sep (a.takeWhile (· != 10)) (post ++ t) 10
        (not_mem_takeWhile_ne a 10)
      rw [← hat] at h1 h2
      rw [(lines_of_newline a post 10 hd).1] at hl
      rw [(lines_of_newline (a ++ t) (post ++ t) 10 h2).1, h1]
      rcases List.mem_cons.mp hl with h | h
      · rw [h]
        exact List.mem_cons_self _ _
      · apply List.mem_cons_of_mem
        apply ih post t l _ h
        have := congrArg List.length hsplit
        simp only [List.length_append, List.length_cons, List.length_nil] at this
        omega

theorem terminatedLines_take (content l : GoString) (n : Nat)
    (h : l ∈ terminatedLines (content.take n)) : l ∈ terminatedLines content := by
  have := terminatedLines_append (content.take n).length (content.take n) (content.drop n) l
    (Nat.le_refl _) h
  rwa [List.take_append_drop] at this

theorem ReadString_cases (r : Reader) :
    (r.data.dropWhile (· != 10) = []
      ∧ ReadString r 10
        = (r.data, some (if r.broken then GoError.readFailed else GoError.EOF), ⟨[], r.broken⟩))
    ∨ (∃ post, r.data.dropWhile (· != 10) = 10 :: post
      ∧ ReadString r 10 = (r.data.takeWhile (· != 10) ++ [10], none, ⟨post, r.broken⟩)) := by
  obtain ⟨data, b⟩ := r
  cases hd : data.dropWhile (· != 10) with
  | nil => exact Or.inl ⟨rfl, ReadString_of_no_newline data b hd⟩
  | cons d post =>
    have hd10 := newline_of_dropWhile hd
    subst hd10
    exact Or.inr ⟨post, rfl, ReadString_of_newline data post 10 b hd⟩

/-- Every key of the map the scan loop returns is the key of some line of `L`, when `L` holds
the lines the reader still has to deliver. -/
theorem scan_keys_from_lines (L : List GoString) (fuel : Nat) (r : Reader) (eof : Bool)
    (res : GoMap × Option GoError)
    (hterm : ∀ l ∈ terminatedLines r.data, l ∈ L)
    (hlast : r.broken = false → r.data ≠ [] → afterLastNewline r.data ∈ L)
    (h : LoadEnv.scan fuel r eof [] = .ret res) :
    ∀ e ∈ res.1, ∃ l ∈ L, specKey l = some e.1 := by
  refine scan_invariant
    (fun r m => (∀ l ∈ terminatedLines r.data, l ∈ L)
      ∧ (r.broken = false → r.data ≠ [] → afterLastNewline r.data ∈ L)
      ∧ (∀ e ∈ m, ∃ l ∈ L, specKey l = some e.1))
    (fun m => ∀ e ∈ m, ∃ l ∈ L, specKey l = some e.1) ?_ fuel r eof [] res
    ⟨hterm, hlast, by simp⟩ h
  intro r eof envs x hI hb
  obtain ⟨hT, hA, hM⟩ := hI
  -- the reader after the read, and the line the read delivered
  have hreader : (∀ l ∈ terminatedLines (ReadString r 10).2.2.data, l ∈ L)
      ∧ ((ReadString r 10).2.2.broken = false → (ReadString r 10).2.2.data ≠ [] →
          afterLastNewline (ReadString r 10).2.2.data ∈ L) := by
    rcases ReadString_cases r with ⟨_, hrs⟩ | ⟨post, hd, hrs⟩
    · rw [hrs]
      exact ⟨fun l hl => by simp [terminatedLines, fileLines] at hl, fun _ hne => absurd rfl hne⟩
    · rw [hrs]
      obtain ⟨h1, h2⟩ := lines_of_newline r.data post 10 hd
      refine ⟨fun l hl => hT l (by rw [h1]; exact List.mem_cons_of_mem _ hl), fun hbr _ => ?_⟩
      have hne : r.data ≠ [] := by
        intro hnil
        rw [hnil] at hd
        simp at hd
      have := hA hbr hne
      rw [h2] at this
      exact this
  have hline : ((ReadString r 10).2.1 = none ∨ (ReadString r 10).2.1 = some GoError.EOF) →
      (ReadString r 10).1.dropWhile isBlankByte ≠ [] →
      ((ReadString r 10).1.dropWhile isBlankByte).head? ≠ some 35 →
      (61 : UInt8) ∈ (ReadString r 10).1.dropWhile isBlankByte →
      ∃ l ∈ L, specKey l
        = some (((ReadString r 10).1.dropWhile isBlankByte).takeWhile (· != 61)) := by
    rcases ReadString_cases r with ⟨hd, hrs⟩ | ⟨post, hd, hrs⟩
    · rw [hrs]
      intro herr hne hhead hmem
      have hbr : r.broken = false := by
        cases hb2 : r.broken with
        | false => rfl
        | true =>
          rw [hb2] at herr
          simp at herr
      have hdata : r.data ≠ [] := by
        intro hnil
        rw [hnil] at hne
        exact hne rfl
      have hl := hA hbr hdata
      rw [(lines_of_no_newline r.data hd).2] at hl
      exact ⟨r.data, hl, specKey_of_dropWhile r.data hne hhead hmem⟩
    · rw [hrs]
      intro _ hne hhead hmem
      have hl : r.data.takeWhile (· != 10) ∈ L :=
        hT _ (by rw [(lines_of_newline r.data post 10 hd).1]; exact List.mem_cons_self _ _)
      refine ⟨_, hl, ?_⟩
      rw [← specKey_append_newline]
      exact specKey_of_dropWhile _ hne hhead hmem
  have hassign : ∀ post,
      ((ReadString r 10).2.1 = none ∨ (ReadString r 10).2.1 = some GoError.EOF) →
      (ReadString r 10).1.dropWhile isBlankByte ≠ [] →
      ((ReadString r 10).1.dropWhile isBlankByte).head? ≠ some 35 →
      ((ReadString r 10).1.dropWhile isBlankByte).dropWhile (· != 61) = 61 :: post →
      ∀ e ∈ GoMap.assign envs (((ReadString r 10).1.dropWhile isBlankByte).takeWhile (· != 61))
        post, ∃ l ∈ L, specKey l = some e.1 := by
    intro post herr hne hhead hsplit e he
    rcases mem_assign _ _ _ e he with h1 | h1
    · rw [h1]
      apply hline herr hne hhead
      have : (61 : UInt8) ∈ ((ReadString r 10).1.dropWhile isBlankByte).dropWhile (· != 61) := by
        rw [hsplit]
        exact List.mem_cons_self _ _
      exact (List.dropWhile_suffix _).subset this
    · exact hM e h1
  rcases body_ret_cases r eof envs x hb with ⟨hx, _, _⟩ | ⟨eof1, hx⟩
      | ⟨post, eof1, herr, hne, hhead, hsplit, hx | hx⟩
  · subst hx
    exact ⟨fun _ _ _ hn => LoopExit.noConfusion hn, fun _ hn => LoopExit.noConfusion hn,
      fun envs1 err hn => by injection hn with h1 _; rw [← h1]; exact hM⟩
  · subst hx
    exact ⟨fun r1 e1 envs1 hn => by
        injection hn with h1 _ h3
        rw [← h1, ← h3]
        exact ⟨hreader.1, hreader.2, hM⟩,
      fun _ hn => LoopExit.noConfusion hn, fun _ _ hn => LoopExit.noConfusion hn⟩
  · subst hx
    exact ⟨fun _ _ _ hn => LoopExit.noConfusion hn,
      fun envs1 hn => by
        injection hn with h1
        rw [← h1]
        exact hassign post herr hne hhead hsplit,
      fun _ _ hn => LoopExit.noConfusion hn⟩
  · subst hx
    exact ⟨fun r1 e1 envs1 hn => by
        injection hn with h1 _ h3
        rw [← h1, ← h3]
        exact ⟨hreader.1, hreader.2, hassign post herr hne hhead hsplit⟩,
      fun _ hn => LoopExit.noConfusion hn, fun _ _ hn => LoopExit.noConfusion hn⟩

/-! ## The claims -/

/-- C1 (code defect). The file `A=1\nB=2` holds the well-formed line `A=1`, and `LoadEnv`
returns on it, yet `Get("A")` and the environment variable `A` are `"1\n"`, not `"1"`: the
newline that ends the line stays in the value. On the file `A=1\n` `LoadEnv` never returns at
all. -/
theorem C1_value_keeps_line_end (ro : GoMap → List (GoString × GoString))
    (hro : RangeOracle ro) (n : Nat) :
    (∃ w1, LoadEnv (2 + n) ro IOFaults.noFault (worldWithFile (ascii "A=1\nB=2")) = .ret (w1, none)
      ∧ Get w1 (ascii "A") = ascii "1\n"
      ∧ LookupEnv w1.environ (ascii "A") = some (ascii "1\n")
      ∧ Get w1 (ascii "A") ≠ ascii "1")
    ∧ LoadEnv n ro IOFaults.noFault (worldWithFile (ascii "A=1\n")) = .fuelOut := by
  constructor
  · have hscan : LoadEnv.scan 2 ⟨ascii "A=1\nB=2", false⟩ false []
        = .ret ([(ascii "A", ascii "1\n"), (ascii "B", ascii "2")], none) := by decide
    refine ⟨_, LoadEnv_of_scan_ret 2 ro _ _ _ _ (worldWithFile_lookup _) rfl rfl hscan n,
      by rw [Get_mk]; decide, ?_, by rw [Get_mk]; decide⟩
    rcases perm_pair (hro [(ascii "A", ascii "1\n"), (ascii "B", ascii "2")]) with h | h <;>
      rw [h] <;> decide
  · have hbody : LoadEnv.body ⟨ascii "A=1\n", false⟩ false []
        = .ret (.next ⟨[], false⟩ false [(ascii "A", ascii "1\n")]) := by decide
    exact LoadEnv_of_scan_fuelOut n ro _ _ _ (worldWithFile_lookup _) rfl rfl
      (scan_fuelOut_of_last_next hbody n)

/-- C1, at the identity range order and the least fuel. -/
theorem C1_value_keeps_line_end_witness :
    RangeOracle id ∧
    ((∃ w1, LoadEnv (2 + 0) id IOFaults.noFault (worldWithFile (ascii "A=1\nB=2")) = .ret (w1, none)
      ∧ Get w1 (ascii "A") = ascii "1\n"
      ∧ LookupEnv w1.environ (ascii "A") = some (ascii "1\n")
      ∧ Get w1 (ascii "A") ≠ ascii "1")
    ∧ LoadEnv 0 id IOFaults.noFault (worldWithFile (ascii "A=1\n")) = .fuelOut) :=
  ⟨fun m => List.Perm.refl m, C1_value_keeps_line_end id (fun m => List.Perm.refl m) 0⟩

/-- C2 (code defect). Saving the Store `{"A":"1","B":"2"}` succeeds, and reloading the written
file returns, but the two entries come back as one: either `Get("A") == "1B=2"` with no `B`,
or `Get("B") == "2A=1"` with no `A`, according to the order `SaveEnv` iterated in. Never
`Get("A") == "1"` and `Get("B") == "2"`. -/
theorem C2_reload_merges_saved_entries (w : World) (m : GoMap)
    (ro1 ro2 : GoMap → List (GoString × GoString)) (n : Nat)
    (hro : RangeOracle ro1) (hw : w.Envs = some m)
    (hm : m.Perm [(ascii "A", ascii "1"), (ascii "B", ascii "2")]) :
    (SaveEnv ro1 IOFaults.noFault w).2 = none ∧
    ∃ w2, LoadEnv (1 + n) ro2 IOFaults.noFault (SaveEnv ro1 IOFaults.noFault w).1 = .ret (w2, none)
      ∧ ((Get w2 (ascii "A") = ascii "1B=2" ∧ Get w2 (ascii "B") = ascii "")
          ∨ (Get w2 (ascii "B") = ascii "2A=1" ∧ Get w2 (ascii "A") = ascii ""))
      ∧ ¬ (Get w2 (ascii "A") = ascii "1" ∧ Get w2 (ascii "B") = ascii "2") := by
  have hok := SaveEnv_noFault_ok ro1 w
  refine ⟨hok, ?_⟩
  have hfile := SaveEnv_ok_file ro1 IOFaults.noFault w hok
  obtain ⟨_, _, hpath⟩ := SaveEnv_Envs ro1 IOFaults.noFault w
  rw [← hpath, hw] at hfile
  simp only [rangeEntries, Option.getD_some] at hfile
  rcases perm_pair ((hro m).trans hm) with h | h
  · rw [h] at hfile
    have hscan : LoadEnv.scan 1
        ⟨([(ascii "A", ascii "1"), (ascii "B", ascii "2")].map entryText).flatten, false⟩ false []
        = .ret ([(ascii "A", ascii "1B=2")], none) := by decide
    refine ⟨_, LoadEnv_of_scan_ret 1 ro2 _ _ _ _ hfile rfl rfl hscan n, ?_, ?_⟩
    · left; constructor <;> (rw [Get_mk]; decide)
    · simp only [Get_mk]; decide
  · rw [h] at hfile
    have hscan : LoadEnv.scan 1
        ⟨([(ascii "B", ascii "2"), (ascii "A", ascii "1")].map entryText).flatten, false⟩ false []
        = .ret ([(ascii "B", ascii "2A=1")], none) := by decide
    refine ⟨_, LoadEnv_of_scan_ret 1 ro2 _ _ _ _ hfile rfl rfl hscan n, ?_, ?_⟩
    · right; constructor <;> (rw [Get_mk]; decide)
    · simp only [Get_mk]; decide

/-- C2 at a world without any file, both iterations in stored order, least fuel. -/
theorem C2_reload_merges_saved_entries_witness :
    (SaveEnv id IOFaults.noFault
      ⟨ascii ".env", some [(ascii "A", ascii "1"), (ascii "B", ascii "2")], [], [], 0⟩).2 = none ∧
    ∃ w2, LoadEnv (1 + 0) id IOFaults.noFault (SaveEnv id IOFaults.noFault
        ⟨ascii ".env", some [(ascii "A", ascii "1"), (ascii "B", ascii "2")], [], [], 0⟩).1
        = .ret (w2, none)
      ∧ ((Get w2 (ascii "A") = ascii "1B=2" ∧ Get w2 (ascii "B") = ascii "")
          ∨ (Get w2 (ascii "B") = ascii "2A=1" ∧ Get w2 (ascii "A") = ascii ""))
      ∧ ¬ (Get w2 (ascii "A") = ascii "1" ∧ Get w2 (ascii "B") = ascii "2") :=
  C2_reload_merges_saved_entries
    ⟨ascii ".env", some [(ascii "A", ascii "1"), (ascii "B", ascii "2")], [], [], 0⟩
    [(ascii "A", ascii "1"), (ascii "B", ascii "2")] id id 0
    (fun m => List.Perm.refl m) rfl (List.Perm.refl _)

/-- C3 (code defect). On a readable file that holds only blank lines and comment lines,
`LoadEnv` never returns, at any fuel: it either panics (on a line of blanks) or is still in
its scan loop. So it yields no Store at all, empty or not. -/
theorem C3_blank_and_comment_file_never_returns (content : GoString) (w : World)
    (ro : GoMap → List (GoString × GoString)) (io : IOFaults) (fuel : Nat)
    (hfile : GoMap.lookup w.files w.envPath = some content)
    (hopen : io.openFails = false) (hread : io.readFails = none)
    (hlines : ∀ l ∈ fileLines content, isBlankOrComment l) :
    (LoadEnv fuel ro io w = .panic ∨ LoadEnv fuel ro io w = .fuelOut)
      ∧ ∀ x, LoadEnv fuel ro io w ≠ .ret x := by
  have h : LoadEnv fuel ro io w = .panic ∨ LoadEnv fuel ro io w = .fuelOut := by
    rcases scan_of_blank_or_comment fuel content false [] hlines with hs | hs
    · exact Or.inl (LoadEnv_of_scan_panic fuel ro io w content hfile hopen hread hs 0)
    · exact Or.inr (LoadEnv_of_scan_fuelOut fuel ro io w content hfile hopen hread hs)
  refine ⟨h, fun x hx => ?_⟩
  rcases h with h | h <;> rw [h] at hx <;> exact Run.noConfusion hx

/-- C3 at the one-line file `# comment\n`, fuel 5: the loop is still running. -/
theorem C3_blank_and_comment_file_never_returns_witness :
    (LoadEnv 5 id IOFaults.noFault (worldWithFile (ascii "# comment\n")) = .panic
      ∨ LoadEnv 5 id IOFaults.noFault (worldWithFile (ascii "# comment\n")) = .fuelOut)
    ∧ ∀ x, LoadEnv 5 id IOFaults.noFault (worldWithFile (ascii "# comment\n")) ≠ .ret x :=
  C3_blank_and_comment_file_never_returns (ascii "# comment\n")
    (worldWithFile (ascii "# comment\n")) id IOFaults.noFault 5 (worldWithFile_lookup _) rfl rfl
    (by decide)

/-- C4 (code defect). In the file `A=1\nA=2\nB=3` the later of the two lines with key `A` is
`A=2`, and `LoadEnv` returns, yet `Get("A")` is `"2\n"`, not `"2"`. On the two newline-ended
lines `A=1\nA=2\n` `LoadEnv` never returns. Only without a final newline, on `A=1\nA=2`, does
it return with `Get("A") == "2"`. -/
theorem C4_later_line_value_keeps_line_end (ro : GoMap → List (GoString × GoString)) (n : Nat) :
    (∃ w1, LoadEnv (3 + n) ro IOFaults.noFault (worldWithFile (ascii "A=1\nA=2\nB=3"))
        = .ret (w1, none)
      ∧ Get w1 (ascii "A") = ascii "2\n" ∧ Get w1 (ascii "A") ≠ ascii "2")
    ∧ LoadEnv n ro IOFaults.noFault (worldWithFile (ascii "A=1\nA=2\n")) = .fuelOut
    ∧ (∃ w1, LoadEnv (2 + n) ro IOFaults.noFault (worldWithFile (ascii "A=1\nA=2"))
        = .ret (w1, none) ∧ Get w1 (ascii "A") = ascii "2") := by
  refine ⟨?_, ?_, ?_⟩
  · have hscan : LoadEnv.scan 3 ⟨ascii "A=1\nA=2\nB=3", false⟩ false []
        = .ret ([(ascii "A", ascii "2\n"), (ascii "B", ascii "3")], none) := by decide
    exact ⟨_, LoadEnv_of_scan_ret 3 ro _ _ _ _ (worldWithFile_lookup _) rfl rfl hscan n,
      by rw [Get_mk]; decide, by rw [Get_mk]; decide⟩
  · have h1 : LoadEnv.body ⟨ascii "A=1\nA=2\n", false⟩ false []
        = .ret (.next ⟨ascii "A=2\n", false⟩ false [(ascii "A", ascii "1\n")]) := by decide
    have h2 : LoadEnv.body ⟨ascii "A=2\n", false⟩ false [(ascii "A", ascii "1\n")]
        = .ret (.next ⟨[], false⟩ false [(ascii "A", ascii "2\n")]) := by decide
    apply LoadEnv_of_scan_fuelOut n ro _ _ _ (worldWithFile_lookup _) rfl rfl
    cases n with
    | zero => rfl
    | succ k => rw [scan_succ_next h1, scan_fuelOut_of_last_next h2]
  · have hscan : LoadEnv.scan 2 ⟨ascii "A=1\nA=2", false⟩ false []
        = .ret ([(ascii "A", ascii "2")], none) := by decide
    exact ⟨_, LoadEnv_of_scan_ret 2 ro _ _ _ _ (worldWithFile_lookup _) rfl rfl hscan n,
      by rw [Get_mk]; decide⟩

/-- C5 (code defect). On the scenario file `" # comment\n\nFOO = bar \nBAZ=qux\n"` `LoadEnv`
does not return: the comment line is skipped, and on the blank second line `trimSpaces`
indexes past the end of the line, a run-time panic. Without the blank line `LoadEnv` is still
in its loop at every fuel. Without the blank line and without the final newline it returns,
and then the key `"FOO "` maps to `" bar \n"`, line end included, not to `" bar "`. -/
theorem C5_scenario_panics (ro : GoMap → List (GoString × GoString)) (n : Nat) :
    LoadEnv (2 + n) ro IOFaults.noFault
        (worldWithFile (ascii " # comment\n\nFOO = bar \nBAZ=qux\n")) = .panic
    ∧ trimSpaces (ascii "\n") = .panic
    ∧ LoadEnv n ro IOFaults.noFault
        (worldWithFile (ascii " # comment\nFOO = bar \nBAZ=qux\n")) = .fuelOut
    ∧ (∃ w1, LoadEnv (3 + n) ro IOFaults.noFault
          (worldWithFile (ascii " # comment\nFOO = bar \nBAZ=qux")) = .ret (w1, none)
        ∧ Get w1 (ascii "FOO ") = ascii " bar \n") := by
  refine ⟨?_, by decide, ?_, ?_⟩
  · have hscan : LoadEnv.scan 2 ⟨ascii " # comment\n\nFOO = bar \nBAZ=qux\n", false⟩ false []
        = .panic := by decide
    exact LoadEnv_of_scan_panic 2 ro _ _ _ (worldWithFile_lookup _) rfl rfl hscan n
  · have h1 : LoadEnv.body ⟨ascii " # comment\nFOO = bar \nBAZ=qux\n", false⟩ false []
        = .ret (.next ⟨ascii "FOO = bar \nBAZ=qux\n", false⟩ false []) := by decide
    have h2 : LoadEnv.body ⟨ascii "FOO = bar \nBAZ=qux\n", false⟩ false []
        = .ret (.next ⟨ascii "BAZ=qux\n", false⟩ false [(ascii "FOO ", ascii " bar \n")]) := by
      decide
    have h3 : LoadEnv.body ⟨ascii "BAZ=qux\n", false⟩ false [(ascii "FOO ", ascii " bar \n")]
        = .ret (.next ⟨[], false⟩ false
            [(ascii "FOO ", ascii " bar \n"), (ascii "BAZ", ascii "qux\n")]) := by decide
    apply LoadEnv_of_scan_fuelOut n ro _ _ _ (worldWithFile_lookup _) rfl rfl
    match n with
    | 0 => rfl
    | 1 => rw [scan_succ_next h1]; rfl
    | k + 2 => rw [scan_succ_next h1, scan_succ_next h2, scan_fuelOut_of_last_next h3]
  · have hscan : LoadEnv.scan 3 ⟨ascii " # comment\nFOO = bar \nBAZ=qux", false⟩ false []
        = .ret ([(ascii "FOO ", ascii " bar \n"), (ascii "BAZ", ascii "qux")], none) := by decide
    exact ⟨_, LoadEnv_of_scan_ret 3 ro _ _ _ _ (worldWithFile_lookup _) rfl rfl hscan n,
      by rw [Get_mk]; decide⟩

/-- C6. A `SaveEnv` that returns no error leaves at `envPath` exactly the texts `k=v` of the
entries of the Store, each entry once, in the order the map iteration chose, with nothing
between or after them; what the file held before plays no role. -/
theorem C6_SaveEnv_writes_entries_back_to_back (ro : GoMap → List (GoString × GoString))
    (io : IOFaults) (w : World) (hro : RangeOracle ro)
    (hvalid : GoMap.Valid (rangeEntries w.Envs)) (hok : (SaveEnv ro io w).2 = none) :
    ∃ order : List (GoString × GoString),
      order.Perm (rangeEntries w.Envs) ∧ order.Nodup ∧
      GoMap.lookup (SaveEnv ro io w).1.files w.envPath
        = some ((order.map fun kv => kv.1 ++ ascii "=" ++ kv.2).flatten) := by
  refine ⟨ro (rangeEntries w.Envs), hro _, ?_, SaveEnv_ok_file ro io w hok⟩
  have hnd : (rangeEntries w.Envs).Nodup := List.Nodup.of_map _ hvalid
  exact (hro _).nodup_iff.mpr hnd

/-- C6 at the Store `{"A":"1","B":"2"}` visited in reverse, over an older file. -/
theorem C6_SaveEnv_writes_entries_back_to_back_witness :
    ∃ order : List (GoString × GoString),
      order.Perm [(ascii "A", ascii "1"), (ascii "B", ascii "2")] ∧ order.Nodup ∧
      GoMap.lookup (SaveEnv List.reverse IOFaults.noFault
          ⟨ascii ".env", some [(ascii "A", ascii "1"), (ascii "B", ascii "2")], [],
            [(ascii ".env", ascii "OLD=x\n")], 0⟩).1.files (ascii ".env")
        = some ((order.map fun kv => kv.1 ++ ascii "=" ++ kv.2).flatten) :=
  C6_SaveEnv_writes_entries_back_to_back List.reverse IOFaults.noFault
    ⟨ascii ".env", some [(ascii "A", ascii "1"), (ascii "B", ascii "2")], [],
      [(ascii ".env", ascii "OLD=x\n")], 0⟩
    (fun m => List.reverse_perm m) (by decide) (by decide)

/-- C7. On an initialised Store, `Set` and `SetSave` (blocking or not) return, and when the
error they return is nil, `Get(key)` is `value` and the environment variable `key` is
`value`. -/
theorem C7_set_updates_store_and_environment (w : World) (m : GoMap) (key value : GoString)
    (hw : w.Envs = some m) :
    (∃ w1 e, Set w key value = .ret (w1, e) ∧
      (e = none → Get w1 key = value ∧ LookupEnv w1.environ key = some value)) ∧
    (∀ (blocking : List Bool) (ro : GoMap → List (GoString × GoString)) (io : IOFaults),
      ∃ w1 e, SetSave w key value blocking ro io = .ret (w1, e) ∧
        (e = none → Get w1 key = value ∧ LookupEnv w1.environ key = some value)) := by
  constructor
  · refine ⟨_, _, by simp only [Set, hw]; rfl, fun he => ⟨?_, ?_⟩⟩
    · simp [Get, rangeEntries, index_assign_self]
    · exact Setenv_ok_lookup _ _ _ he
  · intro blocking ro io
    by_cases hb : blocking.length ≠ 0 ∧ blocking.head? = some true
    · refine ⟨_, _, by simp only [SetSave, hw, if_pos hb]; rfl, fun he => ?_⟩
      obtain ⟨h1, h2, _⟩ := SaveEnv_Envs ro io
        ⟨w.envPath, some (GoMap.assign m key value), (Setenv w.environ key value).1, w.files,
          w.spawned⟩
      refine ⟨?_, ?_⟩
      · simp only [Get, h1, rangeEntries, Option.getD_some, index_assign_self]
      · rw [h2]
        exact Setenv_ok_lookup _ _ _ he
    · refine ⟨_, _, by simp only [SetSave, hw, if_neg hb]; rfl, fun he => ⟨?_, ?_⟩⟩
      · simp [Get, rangeEntries, index_assign_self]
      · exact Setenv_ok_lookup _ _ _ he

/-- C7 at `Set("A", "1")` on the empty Store. -/
theorem C7_set_updates_store_and_environment_witness :
    (∃ w1 e, Set ⟨ascii ".env", some [], [], [], 0⟩ (ascii "A") (ascii "1") = .ret (w1, e) ∧
      (e = none → Get w1 (ascii "A") = ascii "1"
        ∧ LookupEnv w1.environ (ascii "A") = some (ascii "1"))) ∧
    (∀ (blocking : List Bool) (ro : GoMap → List (GoString × GoString)) (io : IOFaults),
      ∃ w1 e, SetSave ⟨ascii ".env", some [], [], [], 0⟩ (ascii "A") (ascii "1") blocking ro io
          = .ret (w1, e) ∧
        (e = none → Get w1 (ascii "A") = ascii "1"
          ∧ LookupEnv w1.environ (ascii "A") = some (ascii "1"))) :=
  C7_set_updates_store_and_environment ⟨ascii ".env", some [], [], [], 0⟩ [] (ascii "A")
    (ascii "1") rfl

/-- C8. On an initialised Store, `Set` returns; the error it returns is the one `os.Setenv`
gave, so it is non-nil exactly when the environment write failed; and in either case the
Store maps `key` to `value` afterwards. -/
theorem C8_set_error_is_setenv_error (w : World) (m : GoMap) (key value : GoString)
    (hw : w.Envs = some m) :
    ∃ w1 e, Set w key value = .ret (w1, e)
      ∧ (e ≠ none ↔ (Setenv w.environ key value).2 ≠ none)
      ∧ w1.Envs = some (GoMap.assign m key value)
      ∧ Get w1 key = value := by
  refine ⟨_, _, by simp only [Set, hw]; rfl, Iff.rfl, rfl, ?_⟩
  simp [Get, rangeEntries, index_assign_self]

/-- C8 at `Set("", "x")`, which the environment rejects: the error is returned and the Store
still holds `"" ↦ "x"`. -/
theorem C8_set_error_is_setenv_error_witness :
    ∃ w1 e, Set ⟨ascii ".env", some [], [], [], 0⟩ (ascii "") (ascii "x") = .ret (w1, e)
      ∧ (e ≠ none ↔ (Setenv [] (ascii "") (ascii "x")).2 ≠ none)
      ∧ w1.Envs = some (GoMap.assign [] (ascii "") (ascii "x"))
      ∧ Get w1 (ascii "") = ascii "x" :=
  C8_set_error_is_setenv_error ⟨ascii ".env", some [], [], [], 0⟩ [] (ascii "") (ascii "x") rfl

/-- C9. A blocking `SetSave` is `Set` followed by `SaveEnv`, returning what `Set` returned:
the two runs are equal outcome for outcome, for every Store (nil included), key, value, file
system and I/O failure. On an initialised Store it returns with the world `SaveEnv` left
behind and with the error of `Set`; and when that `SaveEnv` met no error, the file at
`envPath` is the rendering of the updated Store and contains `key=value`. -/
theorem C9_blocking_SetSave_is_Set_then_SaveEnv (w : World) (key value : GoString)
    (more : List Bool) (ro : GoMap → List (GoString × GoString)) (io : IOFaults) :
    SetSave w key value (true :: more) ro io = SetThenSave w key value ro io
    ∧ (∀ m, w.Envs = some m → RangeOracle ro →
        ∃ w1 e, Set w key value = .ret (w1, e)
          ∧ SetSave w key value (true :: more) ro io = .ret ((SaveEnv ro io w1).1, e)
          ∧ e = (Setenv w.environ key value).2
          ∧ ((SaveEnv ro io w1).2 = none →
              ∃ content, GoMap.lookup (SaveEnv ro io w1).1.files w.envPath = some content
                ∧ content = ((ro (GoMap.assign m key value)).map entryText).flatten
                ∧ List.IsInfix (key ++ ascii "=" ++ value) content)) := by
  constructor
  · cases hw : w.Envs with
    | none => simp [SetSave, SetThenSave, Set, hw, Run.bind]
    | some m => simp [SetSave, SetThenSave, Set, hw, Run.bind]
  · intro m hw hro
    refine ⟨_, _, by simp only [Set, hw]; rfl, by simp [SetSave, hw], rfl, fun hok => ?_⟩
    refine ⟨_, SaveEnv_ok_file ro io _ hok, rfl, ?_⟩
    have hmem : (key, value) ∈ ro (GoMap.assign m key value) :=
      (hro _).mem_iff.mpr (mem_assign_self m key value)
    have := List.infix_of_mem_flatten (List.mem_map_of_mem entryText hmem)
    simpa [entryText, rangeEntries] using this

/-- C9 at `SetSave("B", "2", true)` on the Store `{"A":"1"}` over an older file. -/
theorem C9_blocking_SetSave_is_Set_then_SaveEnv_witness :
    ∃ w1 e, Set ⟨ascii ".env", some [(ascii "A", ascii "1")], [], [(ascii ".env", ascii "A=0")], 0⟩
        (ascii "B") (ascii "2") = .ret (w1, e)
      ∧ SetSave ⟨ascii ".env", some [(ascii "A", ascii "1")], [], [(ascii ".env", ascii "A=0")], 0⟩
          (ascii "B") (ascii "2") (true :: []) id IOFaults.noFault
          = .ret ((SaveEnv id IOFaults.noFault w1).1, e)
      ∧ e = (Setenv [] (ascii "B") (ascii "2")).2
      ∧ ((SaveEnv id IOFaults.noFault w1).2 = none →
          ∃ content, GoMap.lookup (SaveEnv id IOFaults.noFault w1).1.files (ascii ".env")
              = some content
            ∧ content = ((id (GoMap.assign [(ascii "A", ascii "1")] (ascii "B") (ascii "2"))).map
                entryText).flatten
            ∧ List.IsInfix (ascii "B" ++ ascii "=" ++ ascii "2") content) :=
  (C9_blocking_SetSave_is_Set_then_SaveEnv
    ⟨ascii ".env", some [(ascii "A", ascii "1")], [], [(ascii ".env", ascii "A=0")], 0⟩
    (ascii "B") (ascii "2") [] id IOFaults.noFault).2
    [(ascii "A", ascii "1")] rfl (fun m => List.Perm.refl m)

/-- C10, as stated, fails when no file exists at `envPath` and `os.Open` fails with an error
that is not a does-not-exist error. With `envPath` `f/.env` and `f` a regular file, no file
exists at the path and the open fails because `f` is not a directory: `LoadEnv` returns that
error, not nil. -/
theorem C10_open_error_on_missing_path_is_returned :
    GoMap.lookup [(ascii "f", ascii "x")] (ascii "f/.env") = none
    ∧ LoadEnv 0 id ⟨true, none, false, none⟩
        ⟨ascii "f/.env", some [(ascii "A", ascii "1")], [(ascii "HOME", ascii "/root")],
          [(ascii "f", ascii "x")], 0⟩
      = .ret (⟨ascii "f/.env", some [], [(ascii "HOME", ascii "/root")],
          [(ascii "f", ascii "x")], 0⟩, some GoError.openFailed)
    ∧ ¬ ∃ w1, LoadEnv 0 id ⟨true, none, false, none⟩
        ⟨ascii "f/.env", some [(ascii "A", ascii "1")], [(ascii "HOME", ascii "/root")],
          [(ascii "f", ascii "x")], 0⟩ = .ret (w1, none) := by
  have h : LoadEnv 0 id ⟨true, none, false, none⟩
        ⟨ascii "f/.env", some [(ascii "A", ascii "1")], [(ascii "HOME", ascii "/root")],
          [(ascii "f", ascii "x")], 0⟩
      = .ret (⟨ascii "f/.env", some [], [(ascii "HOME", ascii "/root")],
          [(ascii "f", ascii "x")], 0⟩, some GoError.openFailed) := by decide
  refine ⟨by decide, h, ?_⟩
  rintro ⟨w1, h1⟩
  rw [h] at h1
  simp at h1

/-- C10, amended. When no file exists at `envPath` and `os.Open` reports just that (a
does-not-exist error), `LoadEnv` returns nil whatever the Store and the environment were, with
the Store empty and the environment (and everything else) as before; the scan loop is not
entered, so this holds at every fuel. -/
theorem C10_missing_file_is_not_an_error (w : World) (ro : GoMap → List (GoString × GoString))
    (io : IOFaults) (fuel : Nat) (hmissing : GoMap.lookup w.files w.envPath = none)
    (hnotexist : io.openFails = false) :
    ∃ w1, LoadEnv fuel ro io w = .ret (w1, none)
      ∧ w1.Envs = some [] ∧ (∀ key, Get w1 key = ascii "")
      ∧ w1.environ = w.environ ∧ w1.files = w.files ∧ w1.envPath = w.envPath := by
  refine ⟨⟨w.envPath, some [], w.environ, w.files, w.spawned⟩, ?_, rfl, fun key => rfl, rfl, rfl,
    rfl⟩
  simp [LoadEnv, hmissing, hnotexist]

/-- C10 (amended) at a world with a used Store, a set environment variable and no file, at
fuel 0. -/
theorem C10_missing_file_is_not_an_error_witness :
    ∃ w1, LoadEnv 0 id IOFaults.noFault
        ⟨ascii ".env", some [(ascii "A", ascii "1")], [(ascii "HOME", ascii "/root")], [], 0⟩
        = .ret (w1, none)
      ∧ w1.Envs = some [] ∧ (∀ key, Get w1 key = ascii "")
      ∧ w1.environ = [(ascii "HOME", ascii "/root")] ∧ w1.files = []
      ∧ w1.envPath = ascii ".env" :=
  C10_missing_file_is_not_an_error
    ⟨ascii ".env", some [(ascii "A", ascii "1")], [(ascii "HOME", ascii "/root")], [], 0⟩
    id IOFaults.noFault 0 rfl rfl

/-- C11, as stated, fails on the one-line file `=v`: `LoadEnv` returns nil with the Store
holding `"" ↦ "v"`, and the environment has no variable with the empty name, since `os.Setenv`
rejects it and `LoadEnv` ignores that error. -/
theorem C11_empty_key_is_not_mirrored :
    ∃ w1, LoadEnv 1 id IOFaults.noFault (worldWithFile (ascii "=v")) = .ret (w1, none)
      ∧ GoMap.lookup (rangeEntries w1.Envs) (ascii "") = some (ascii "v")
      ∧ LookupEnv w1.environ (ascii "") = none :=
  ⟨⟨ascii ".env", some [(ascii "", ascii "v")], [], [(ascii ".env", ascii "=v")], 0⟩,
    by decide, by decide, by decide⟩

/-- C11, amended. After `LoadEnv` returns nil, every entry `(k, v)` of the Store that the
host accepts as an environment variable (`k` not empty, no NUL byte in `k` or `v`) is mirrored:
the environment variable `k` is set and equals `Store[k]`. -/
theorem C11_accepted_entries_are_mirrored (fuel : Nat)
    (ro : GoMap → List (GoString × GoString)) (io : IOFaults) (w w1 : World)
    (hro : RangeOracle ro) (hret : LoadEnv fuel ro io w = .ret (w1, none))
    (k v : GoString) (hkv : GoMap.lookup (rangeEntries w1.Envs) k = some v)
    (hk : k ≠ []) (hk0 : (0 : UInt8) ∉ k) (hv0 : (0 : UInt8) ∉ v) :
    LookupEnv w1.environ k = some v ∧ Get w1 k = v := by
  refine ⟨?_, by simp [Get, GoMap.index, hkv]⟩
  rcases LoadEnv_ret_cases fuel ro io w w1 none hret with ⟨_, _, hE, _⟩ | ⟨_, _, he⟩
      | ⟨content, r, m, _, _, _, hscan, hE, henv⟩
  · rw [hE] at hkv
    simp [rangeEntries, GoMap.lookup] at hkv
  · exact Option.noConfusion he
  · rw [hE] at hkv
    simp only [rangeEntries, Option.getD_some] at hkv
    obtain ⟨hvalid, hkeys⟩ := scan_keys fuel r false (m, none) hscan
    have hmem : (k, v) ∈ ro m := (hro m).mem_iff.mpr (mem_of_lookup m k v hkv)
    have hnd : ((ro m).map Prod.fst).Nodup :=
      ((hro m).map Prod.fst).nodup_iff.mpr hvalid
    rw [henv rfl]
    exact mirror_lookup_of_mem (ro m) w.environ k v hnd hmem hk
      (hkeys (k, v) (mem_of_lookup m k v hkv)) hk0 hv0

/-- C11 (amended) at the file `A=1\nB=2`, entries copied in reverse order, for the key `B`. -/
theorem C11_accepted_entries_are_mirrored_witness :
    LookupEnv (LoadEnv.mirror [] (List.reverse [(ascii "A", ascii "1\n"), (ascii "B", ascii "2")]))
        (ascii "B") = some (ascii "2")
      ∧ Get ⟨ascii ".env", some [(ascii "A", ascii "1\n"), (ascii "B", ascii "2")],
          LoadEnv.mirror [] (List.reverse [(ascii "A", ascii "1\n"), (ascii "B", ascii "2")]),
          [(ascii ".env", ascii "A=1\nB=2")], 0⟩ (ascii "B") = ascii "2" :=
  C11_accepted_entries_are_mirrored 2 List.reverse IOFaults.noFault
    (worldWithFile (ascii "A=1\nB=2"))
    ⟨ascii ".env", some [(ascii "A", ascii "1\n"), (ascii "B", ascii "2")],
      LoadEnv.mirror [] (List.reverse [(ascii "A", ascii "1\n"), (ascii "B", ascii "2")]),
      [(ascii ".env", ascii "A=1\nB=2")], 0⟩
    (fun m => List.reverse_perm m) (by decide) (ascii "B") (ascii "2") (by decide) (by decide)
    (by decide) (by decide)

/-- C12. A trimmed line with an `=` in it is split by `SplitN(line, "=", 2)` into exactly two
pieces `key` and `value`: `key` holds no `=`, and `key + "=" + value` is the line, so the cut
is at the first `=` and every later `=` stays in `value`. When the line reaches the split (it
is not empty and does not start with `#`), the pass of the loop stores exactly this pair. -/
theorem C12_split_at_first_equals_only (line1 : GoString) (hmem : (61 : UInt8) ∈ line1) :
    ∃ key value, SplitN line1 61 2 = [key, value]
      ∧ (61 : UInt8) ∉ key
      ∧ key ++ ascii "=" ++ value = line1
      ∧ (∀ (r r1 : Reader) (eof : Bool) (envs : GoMap) (line : GoString)
          (err : Option GoError), ReadString r 10 = (line, err, r1) →
          (err = none ∨ err = some GoError.EOF) → trimSpaces line = .ret line1 →
          ¬ (line1.length = 0 ∨ line1.head? = some 35) →
          LoadEnv.body r eof envs = .ret (.brk (GoMap.assign envs key value))
            ∨ ∃ eof1, LoadEnv.body r eof envs
                = .ret (.next r1 eof1 (GoMap.assign envs key value))) := by
  obtain ⟨post, hpost⟩ := dropWhile_ne_sep_of_mem line1 61 hmem
  refine ⟨line1.takeWhile (· != 61), post, SplitN_of_dropWhile line1 post 61 hpost,
    not_mem_takeWhile_ne line1 61, takeWhile_sep_dropWhile line1 post 61 hpost, ?_⟩
  intro r r1 eof envs line err hread herr htrim hskip
  have hb := @body_of_pair r r1 eof envs line line1 post err hread herr htrim hskip hpost
  by_cases he : (if err ≠ none then true else eof) = true
  · rw [if_pos he] at hb
    exact Or.inl hb
  · rw [if_neg he] at hb
    exact Or.inr ⟨_, hb⟩

/-- C12 at the trimmed line `URL=a=b==c`. -/
theorem C12_split_at_first_equals_only_witness :
    ∃ key value, SplitN (ascii "URL=a=b==c") 61 2 = [key, value]
      ∧ (61 : UInt8) ∉ key
      ∧ key ++ ascii "=" ++ value = ascii "URL=a=b==c"
      ∧ (∀ (r r1 : Reader) (eof : Bool) (envs : GoMap) (line : GoString)
          (err : Option GoError), ReadString r 10 = (line, err, r1) →
          (err = none ∨ err = some GoError.EOF) → trimSpaces line = .ret (ascii "URL=a=b==c") →
          ¬ ((ascii "URL=a=b==c").length = 0 ∨ (ascii "URL=a=b==c").head? = some 35) →
          LoadEnv.body r eof envs = .ret (.brk (GoMap.assign envs key value))
            ∨ ∃ eof1, LoadEnv.body r eof envs
                = .ret (.next r1 eof1 (GoMap.assign envs key value))) :=
  C12_split_at_first_equals_only (ascii "URL=a=b==c") (by decide)

/-- C13. `LoadEnv` starts from an empty map: its outcome is the same whatever the Store held
before, nil map included. And when it returns, with or without error, every key of the Store
is the key of some line of the file, in the sense of the specification (trimmed, not blank, not
a comment, cut at the first `=`); with the file missing the Store is empty. -/
theorem C13_LoadEnv_resets_store (w : World) (prior : Option GoMap) (fuel : Nat)
    (ro : GoMap → List (GoString × GoString)) (io : IOFaults) :
    LoadEnv fuel ro io ⟨w.envPath, prior, w.environ, w.files, w.spawned⟩ = LoadEnv fuel ro io w
    ∧ ∀ w1 e, LoadEnv fuel ro io w = .ret (w1, e) →
        ∀ k v, GoMap.lookup (rangeEntries w1.Envs) k = some v →
          ∃ content l, GoMap.lookup w.files w.envPath = some content
            ∧ l ∈ fileLines content ∧ specKey l = some k := by
  refine ⟨rfl, ?_⟩
  intro w1 e hret k v hkv
  rcases LoadEnv_ret_cases fuel ro io w w1 e hret with ⟨_, _, hE, _⟩ | ⟨_, hE, _⟩
      | ⟨content, r, m, hfile, _, hr, hscan, hE, _⟩
  · rw [hE] at hkv
    simp [rangeEntries, GoMap.lookup] at hkv
  · rw [hE] at hkv
    simp [rangeEntries, GoMap.lookup] at hkv
  · rw [hE] at hkv
    simp only [rangeEntries, Option.getD_some] at hkv
    have hmem := mem_of_lookup m k v hkv
    have hkeys : ∀ e ∈ m, ∃ l ∈ fileLines content, specKey l = some e.1 := by
      rcases hr with ⟨_, hr⟩ | ⟨n, _, hr⟩
      · subst hr
        exact scan_keys_from_lines (fileLines content) fuel _ false (m, e)
          (fun l hl => terminatedLines_subset content l hl)
          (fun _ _ => afterLastNewline_mem content) hscan
      · subst hr
        exact scan_keys_from_lines (fileLines content) fuel _ false (m, e)
          (fun l hl => terminatedLines_subset content l (terminatedLines_take content l n hl))
          (fun hbr _ => Bool.noConfusion hbr) hscan
    obtain ⟨l, hl, hkey⟩ := hkeys (k, v) hmem
    exact ⟨content, l, hfile, hl, hkey⟩

/-- C13 at the file `# c\nA=1\nB=2` loaded over the Store `{"OLD":"x"}`: the outcome is that
of loading over the nil map, and the key `B` of the result comes from a line of the file. -/
theorem C13_LoadEnv_resets_store_witness :
    LoadEnv 3 id IOFaults.noFault
        ⟨ascii ".env", some [(ascii "OLD", ascii "x")], [], [(ascii ".env", ascii "# c\nA=1\nB=2")], 0⟩
      = LoadEnv 3 id IOFaults.noFault (worldWithFile (ascii "# c\nA=1\nB=2"))
    ∧ ∃ content l, GoMap.lookup (worldWithFile (ascii "# c\nA=1\nB=2")).files
          (worldWithFile (ascii "# c\nA=1\nB=2")).envPath = some content
        ∧ l ∈ fileLines content ∧ specKey l = some (ascii "B") :=
  ⟨(C13_LoadEnv_resets_store (worldWithFile (ascii "# c\nA=1\nB=2"))
      (some [(ascii "OLD", ascii "x")]) 3 id IOFaults.noFault).1,
    (C13_LoadEnv_resets_store (worldWithFile (ascii "# c\nA=1\nB=2")) none 3 id
      IOFaults.noFault).2
      ⟨ascii ".env", some [(ascii "A", ascii "1\n"), (ascii "B", ascii "2")],
        [(ascii "A", ascii "1\n"), (ascii "B", ascii "2")],
        [(ascii ".env", ascii "# c\nA=1\nB=2")], 0⟩ none (by decide) (ascii "B") (ascii "2")
      (by decide)⟩

/-- C14. A line read without I/O error whose trimmed form is not empty, does not start with
`#` and holds no `=` is skipped: the pass of the loop over it ends in `continue` with the map
as it was, and neither returns an error nor panics. -/
theorem C14_line_without_equals_is_skipped (r r1 : Reader) (eof : Bool) (envs : GoMap)
    (line : GoString) (err : Option GoError) (hread : ReadString r 10 = (line, err, r1))
    (herr : err = none ∨ err = some GoError.EOF)
    (hnonempty : specTrim line ≠ []) (_hnocomment : (specTrim line).head? ≠ some 35)
    (hnoeq : (61 : UInt8) ∉ specTrim line) :
    ∃ eof1, LoadEnv.body r eof envs = .ret (.next r1 eof1 envs) := by
  have hne : line.dropWhile isBlankByte ≠ [] := fun h => hnonempty ((specTrim_eq_nil_iff line).mpr h)
  have hno : (61 : UInt8) ∉ line.dropWhile isBlankByte := by
    intro h
    have h1 := (mem_dropWhile_iff_of_not isBlankByte line 61 (by decide)).mp h
    exact hnoeq ((mem_specTrim_iff line 61 (by decide)).mpr h1)
  exact ⟨_, body_of_no_eq hread herr (trimSpaces_of_nonblank line hne) hno⟩

/-- C14 at the line `NOVALUE\n` read from `NOVALUE\nA=1` into the Store `{"B":"2"}`. -/
theorem C14_line_without_equals_is_skipped_witness :
    ∃ eof1, LoadEnv.body ⟨ascii "NOVALUE\nA=1", false⟩ false [(ascii "B", ascii "2")]
      = .ret (.next ⟨ascii "A=1", false⟩ eof1 [(ascii "B", ascii "2")]) :=
  C14_line_without_equals_is_skipped ⟨ascii "NOVALUE\nA=1", false⟩ ⟨ascii "A=1", false⟩ false
    [(ascii "B", ascii "2")] (ascii "NOVALUE\n") none (by decide) (Or.inl rfl) (by decide)
    (by decide) (by decide)

/-- C15. A line read without I/O error whose first byte after trimming is `#` is skipped as a
comment, whatever blanks precede the `#` and whether or not an `=` follows it: the pass of the
loop over it ends in `continue` with the map as it was. -/
theorem C15_comment_line_is_skipped (r r1 : Reader) (eof : Bool) (envs : GoMap)
    (line : GoString) (err : Option GoError) (hread : ReadString r 10 = (line, err, r1))
    (herr : err = none ∨ err = some GoError.EOF)
    (hcomment : (specTrim line).head? = some 35) :
    ∃ eof1, LoadEnv.body r eof envs = .ret (.next r1 eof1 envs) := by
  rw [specTrim_head] at hcomment
  have hne : line.dropWhile isBlankByte ≠ [] := by
    intro h
    rw [h] at hcomment
    simp at hcomment
  exact ⟨_, body_of_skip hread herr (trimSpaces_of_nonblank line hne) (Or.inr hcomment)⟩

/-- C15 at the line `" \t# A=1\n"` read from `" \t# A=1\nB=2"` into the Store `{"A":"0"}`. -/
theorem C15_comment_line_is_skipped_witness :
    ∃ eof1, LoadEnv.body ⟨ascii " \t# A=1\nB=2", false⟩ false [(ascii "A", ascii "0")]
      = .ret (.next ⟨ascii "B=2", false⟩ eof1 [(ascii "A", ascii "0")]) :=
  C15_comment_line_is_skipped ⟨ascii " \t# A=1\nB=2", false⟩ ⟨ascii "B=2", false⟩ false
    [(ascii "A", ascii "0")] (ascii " \t# A=1\n") none (by decide) (Or.inl rfl) (by decide)

/-- C16 (code defect). `trimSpaces` does not remove trailing blanks: on every line that holds
a byte that is not blank and ends in a blank byte, it returns a string that still ends in that
blank byte. So `"FOO = bar \n"` comes back unchanged, where the trim of the specification is
`"FOO = bar"`; and on a line of blanks only, such as `" \t"`, it panics. -/
theorem C16_trimSpaces_keeps_trailing_blanks (b : GoString) (last : UInt8)
    (hnonblank : ∃ c ∈ b, isBlankByte c = false) (hlast : b.getLast? = some last)
    (hblank : isBlankByte last = true) :
    (∃ t, trimSpaces b = .ret t ∧ t.getLast? = some last ∧ isBlankByte last = true)
    ∧ trimSpaces (ascii "FOO = bar \n") = .ret (ascii "FOO = bar \n")
    ∧ specTrim (ascii "FOO = bar \n") = ascii "FOO = bar"
    ∧ trimSpaces (ascii " \t") = .panic := by
  have hne := dropWhile_ne_nil_of_nonblank b hnonblank
  refine ⟨⟨_, trimSpaces_of_nonblank b hne, ?_, hblank⟩, by decide, by decide, by decide⟩
  rw [getLast_dropWhile _ _ hne, hlast]

/-- C16 at the line `"A=1\n"`. -/
theorem C16_trimSpaces_keeps_trailing_blanks_witness :
    (∃ t, trimSpaces (ascii "A=1\n") = .ret t ∧ t.getLast? = some 10 ∧ isBlankByte 10 = true)
    ∧ trimSpaces (ascii "FOO = bar \n") = .ret (ascii "FOO = bar \n")
    ∧ specTrim (ascii "FOO = bar \n") = ascii "FOO = bar"
    ∧ trimSpaces (ascii " \t") = .panic :=
  C16_trimSpaces_keeps_trailing_blanks (ascii "A=1\n") 10 (by decide) (by decide) (by decide)

/-- C17 (code defect). On every non-empty line of blanks only, `trimSpaces` panics: its first
loop stops at `st == len(buf)` and its second loop then evaluates `emptyChar(buf, st)`, an
index one past the end. Only on the empty line does it return `""`. -/
theorem C17_trimSpaces_panics_on_blank_line (b : GoString) (hne : b ≠ [])
    (hblank : ∀ c ∈ b, isBlankByte c = true) :
    trimSpaces b = .panic ∧ emptyChar b b.length = .panic ∧ trimSpaces [] = .ret [] :=
  ⟨trimSpaces_of_blank b (dropWhile_eq_nil_of_blank b hblank) hne,
    emptyChar_of_le (Nat.le_refl _), trimSpaces_nil⟩

/-- C17 at the line `" \t\r\n"`. -/
theorem C17_trimSpaces_panics_on_blank_line_witness :
    trimSpaces (ascii " \t\r\n") = .panic
    ∧ emptyChar (ascii " \t\r\n") (ascii " \t\r\n").length = .panic
    ∧ trimSpaces [] = .ret [] :=
  C17_trimSpaces_panics_on_blank_line (ascii " \t\r\n") (by decide) (by decide)

/-- C18. For a readable file, `LoadEnv` returns at some fuel exactly when (a) no
newline-terminated line consists of blanks only and (b) the text after the last newline,
leading blanks removed, is not empty, does not start with `#` and holds an `=`; it then
returns nil. Otherwise it panics or is still in its loop at every fuel. In particular it never
returns on an empty file or on a file that ends with a newline. -/
theorem C18_LoadEnv_returns_iff (content : GoString) (w : World)
    (ro : GoMap → List (GoString × GoString)) (io : IOFaults)
    (hfile : GoMap.lookup w.files w.envPath = some content)
    (hopen : io.openFails = false) (hread : io.readFails = none) :
    ((∃ fuel x, LoadEnv fuel ro io w = .ret x) ↔ ReturnCondition content)
    ∧ (ReturnCondition content → ∃ fuel w1, LoadEnv fuel ro io w = .ret (w1, none))
    ∧ (¬ ReturnCondition content →
        ∀ fuel, LoadEnv fuel ro io w = .panic ∨ LoadEnv fuel ro io w = .fuelOut)
    ∧ (content = [] ∨ content.getLast? = some 10 → ∀ fuel x, LoadEnv fuel ro io w ≠ .ret x) := by
  have hyes : ReturnCondition content → ∃ fuel w1, LoadEnv fuel ro io w = .ret (w1, none) := by
    intro hcond
    obtain ⟨n, hn⟩ : ∃ n, (fileLines content).length = n + 1 :=
      ⟨(fileLines content).length - 1, by have := fileLines_length_pos content; omega⟩
    obtain ⟨m, hm⟩ := scan_ret_of_ReturnCondition n content [] hn hcond
    exact ⟨n + 1 + 0, _, LoadEnv_of_scan_ret (n + 1) ro io w content m hfile hopen hread hm 0⟩
  have hno : ¬ ReturnCondition content →
      ∀ fuel, LoadEnv fuel ro io w = .panic ∨ LoadEnv fuel ro io w = .fuelOut := by
    intro hcond fuel
    rcases scan_not_ret_of_not_ReturnCondition fuel content [] hcond with hs | hs
    · exact Or.inl (LoadEnv_of_scan_panic fuel ro io w content hfile hopen hread hs 0)
    · exact Or.inr (LoadEnv_of_scan_fuelOut fuel ro io w content hfile hopen hread hs)
  have hnever : ¬ ReturnCondition content → ∀ fuel x, LoadEnv fuel ro io w ≠ .ret x := by
    intro hcond fuel x hx
    rcases hno hcond fuel with h | h <;> rw [h] at hx <;> exact Run.noConfusion hx
  refine ⟨⟨?_, ?_⟩, hyes, hno, fun hend => hnever (not_ReturnCondition_of_ends_newline content hend)⟩
  · rintro ⟨fuel, x, hx⟩
    by_contra hcond
    exact hnever hcond fuel x hx
  · intro hcond
    obtain ⟨fuel, w1, h⟩ := hyes hcond
    exact ⟨fuel, _, h⟩

/-- C18 at the file `"# c\nA=1\n B=2"`, which satisfies the condition. -/
theorem C18_LoadEnv_returns_iff_witness :
    ((∃ fuel x, LoadEnv fuel id IOFaults.noFault (worldWithFile (ascii "# c\nA=1\n B=2")) = .ret x)
      ↔ ReturnCondition (ascii "# c\nA=1\n B=2"))
    ∧ ReturnCondition (ascii "# c\nA=1\n B=2")
    ∧ ¬ ReturnCondition (ascii "# c\nA=1\n")
    ∧ ¬ ReturnCondition (ascii "A=1\n \nB=2") :=
  ⟨(C18_LoadEnv_returns_iff (ascii "# c\nA=1\n B=2") (worldWithFile (ascii "# c\nA=1\n B=2")) id
      IOFaults.noFault (worldWithFile_lookup _) rfl rfl).1, by decide, by decide, by decide⟩

/-- C19. For a Store with the single entry `(k, v)`, where `k` holds no `=` and no newline and
does not begin with a blank or `#`, and `v` holds no newline: `SaveEnv` succeeds, and `LoadEnv`
on the file it wrote returns nil with exactly the Store `{k: v}`. -/
theorem C19_single_entry_round_trip (w : World) (k v : GoString)
    (ro1 ro2 : GoMap → List (GoString × GoString)) (n : Nat)
    (hw : w.Envs = some [(k, v)]) (hro : RangeOracle ro1)
    (hkeq : (61 : UInt8) ∉ k) (hknl : (10 : UInt8) ∉ k)
    (hhead : ∀ c, k.head? = some c → isBlankByte c = false ∧ c ≠ 35)
    (hvnl : (10 : UInt8) ∉ v) :
    (SaveEnv ro1 IOFaults.noFault w).2 = none ∧
    ∃ w2, LoadEnv (1 + n) ro2 IOFaults.noFault (SaveEnv ro1 IOFaults.noFault w).1
        = .ret (w2, none)
      ∧ w2.Envs = some [(k, v)] ∧ Get w2 k = v := by
  have hok := SaveEnv_noFault_ok ro1 w
  refine ⟨hok, ?_⟩
  have hfile := SaveEnv_ok_file ro1 IOFaults.noFault w hok
  obtain ⟨_, _, hpath⟩ := SaveEnv_Envs ro1 IOFaults.noFault w
  rw [← hpath, hw] at hfile
  simp only [rangeEntries, Option.getD_some] at hfile
  rw [List.perm_singleton.mp (hro [(k, v)])] at hfile
  have hflat : ([(k, v)].map entryText).flatten = entryText (k, v) := by simp
  rw [hflat] at hfile
  have hscan := scan_of_entryText k v [] hkeq hknl hvnl hhead
  refine ⟨_, LoadEnv_of_scan_ret 1 ro2 _ _ _ _ hfile rfl rfl hscan n, rfl, ?_⟩
  rw [Get_mk]
  exact index_assign_self [] k v

/-- C19 at the entry `"DB URL" ↦ " a=b \r"`: blanks and `=` inside survive the round trip. -/
theorem C19_single_entry_round_trip_witness :
    (SaveEnv id IOFaults.noFault
      ⟨ascii ".env", some [(ascii "DB URL", ascii " a=b \r")], [], [], 0⟩).2 = none ∧
    ∃ w2, LoadEnv (1 + 0) id IOFaults.noFault (SaveEnv id IOFaults.noFault
        ⟨ascii ".env", some [(ascii "DB URL", ascii " a=b \r")], [], [], 0⟩).1
        = .ret (w2, none)
      ∧ w2.Envs = some [(ascii "DB URL", ascii " a=b \r")]
      ∧ Get w2 (ascii "DB URL") = ascii " a=b \r" :=
  C19_single_entry_round_trip
    ⟨ascii ".env", some [(ascii "DB URL", ascii " a=b \r")], [], [], 0⟩
    (ascii "DB URL") (ascii " a=b \r") id id 0 rfl (fun m => List.Perm.refl m)
    (by decide) (by decide) (by decide) (by decide)

/-- C20. On every string that holds a byte that is not blank, `trimSpaces` returns (no index
out of range) exactly the suffix that starts at the first such byte: the input is a run of
blanks followed by the result, and the result starts with a byte that is not blank and keeps
the last byte of the input, blank or not. -/
theorem C20_trimSpaces_returns_suffix_from_first_nonblank (b : GoString)
    (hnonblank : ∃ c ∈ b, isBlankByte c = false) :
    ∃ pre t, trimSpaces b = .ret t
      ∧ b = pre ++ t
      ∧ (∀ c ∈ pre, isBlankByte c = true)
      ∧ (∃ c rest, t = c :: rest ∧ isBlankByte c = false)
      ∧ t = b.dropWhile isBlankByte
      ∧ t.getLast? = b.getLast? := by
  have hne := dropWhile_ne_nil_of_nonblank b hnonblank
  obtain ⟨c, rest, hc⟩ := List.exists_cons_of_ne_nil hne
  exact ⟨b.takeWhile isBlankByte, b.dropWhile isBlankByte, trimSpaces_of_nonblank b hne,
    (List.takeWhile_append_dropWhile isBlankByte b).symm,
    fun x hx => List.mem_takeWhile_imp hx,
    ⟨c, rest, hc, dropWhile_head_false _ _ hc⟩, rfl, getLast_dropWhile _ _ hne⟩

/-- C20 at `" \tA = 1 \n"`. -/
theorem C20_trimSpaces_returns_suffix_from_first_nonblank_witness :
    ∃ pre t, trimSpaces (ascii " \tA = 1 \n") = .ret t
      ∧ ascii " \tA = 1 \n" = pre ++ t
      ∧ (∀ c ∈ pre, isBlankByte c = true)
      ∧ (∃ c rest, t = c :: rest ∧ isBlankByte c = false)
      ∧ t = (ascii " \tA = 1 \n").dropWhile isBlankByte
      ∧ t.getLast? = (ascii " \tA = 1 \n").getLast? :=
  C20_trimSpaces_returns_suffix_from_first_nonblank (ascii " \tA = 1 \n") (by decide)

end Dotenv
